import Mathlib

/-!
Verification development for the CryptaFix cost-basis / encrypted-storage core.

The TypeScript sources are embedded shallowly:
* `src/src/lib/cost-basis.ts` — the cost-basis / tax engine (`calculateCostBasis`,
  `filterTaxResultsByYear`, `calculateUnrealizedGains`);
* the WebCrypto vault module (`encryptWithKey` / `decryptWithKey`), with AES-GCM and
  PBKDF2 idealized symbolically;
* the secure-storage module (`getSecureData`, `setSecureData`, `importBackupData`).

JavaScript numbers are modelled as exact rationals (`ℚ`); floating-point rounding is
out of scope.  `Array.prototype.sort` (stable since ES2019) is modelled by
`List.insertionSort`, which is stable for a total preorder, hence produces the same
list as any stable sort.  The lot identifiers produced by
`` `${tx.hash}-${Date.now()}-${Math.random()...}` `` are modelled by an explicit
identifier supply `g : ℕ → ℕ` sampled at a per-run counter: the supply captures the
dependence on the clock / random generator, and an injective supply models the
(intended) global uniqueness of the generated ids.
-/

set_option maxRecDepth 40000

namespace CryptaFix

/-- Transaction type tags (`Transaction.type` in `crypto-data.ts`). -/
inductive TxType
  | buy | sell | transfer | stake | airdrop
  deriving DecidableEq, Repr

/-- `Transaction` from `crypto-data.ts` (numeric fields as exact rationals). -/
structure Transaction where
  id : String
  walletId : String
  hash : String
  type : TxType
  asset : String
  amount : ℚ
  valueEur : ℚ
  timestamp : ℚ
  fee : Option ℚ := none
  feeEur : Option ℚ := none
  deriving DecidableEq, Repr

/-- `CostBasisLot` from `cost-basis.ts`.  The string id in the source
`hash-Date.now()-random` is modelled as a `ℕ` drawn from the id supply. -/
structure CostBasisLot where
  id : ℕ
  asset : String
  amount : ℚ
  remainingAmount : ℚ
  costPerUnit : ℚ
  totalCost : ℚ
  timestamp : ℚ
  txHash : String
  deriving DecidableEq, Repr

/-- One element of `SaleResult.lotsUsed`. -/
structure LotUse where
  lotId : ℕ
  amountUsed : ℚ
  costPerUnit : ℚ
  cost : ℚ
  deriving DecidableEq, Repr

/-- `SaleResult` from `cost-basis.ts`. -/
structure SaleResult where
  transaction : Transaction
  proceeds : ℚ
  costBasis : ℚ
  gainLoss : ℚ
  lotsUsed : List LotUse
  deriving DecidableEq, Repr

/-- One entry of the `unrealizedGains` record returned by `calculateCostBasis`. -/
structure UnrealizedEntry where
  amount : ℚ
  costBasis : ℚ
  avgCost : ℚ
  deriving DecidableEq, Repr

/-- The record returned by `calculateCostBasis`.  JavaScript objects keyed by
strings are modelled as association lists in insertion order. -/
structure CostBasisResult where
  lots : List CostBasisLot
  sales : List SaleResult
  totalGains : ℚ
  totalLosses : ℚ
  netGain : ℚ
  unrealizedGains : List (String × UnrealizedEntry)
  deriving DecidableEq, Repr

/-- `CostBasisMethod`. -/
inductive CostBasisMethod
  | FIFO | LIFO | HIFO
  deriving DecidableEq, Repr

/-- JavaScript object property read `m[a]` (association list in insertion order). -/
def assocFind {β : Type} (a : String) : List (String × β) → Option β
  | [] => none
  | (k, v) :: rest => if k = a then some v else assocFind a rest

/-- JavaScript object property write `m[a] = v`: overwrites in place, otherwise
appends (insertion order preserved, as for JS string-keyed objects). -/
def assocSet {β : Type} (a : String) (v : β) : List (String × β) → List (String × β)
  | [] => [(a, v)]
  | (k, w) :: rest => if k = a then (k, v) :: rest else (k, w) :: assocSet a v rest

/-- `arr.reduce((sum, x) => sum + f(x), 0)`. -/
def sumBy {β : Type} (f : β → ℚ) (l : List β) : ℚ :=
  l.foldl (fun s x => s + f x) 0

/-- `Math.min` on two (non-NaN) numbers. -/
def jsMin (a b : ℚ) : ℚ := if a ≤ b then a else b

/-- `Math.max` on two (non-NaN) numbers. -/
def jsMax (a b : ℚ) : ℚ := if a ≤ b then b else a

/-- `Math.abs` on a (non-NaN) number. -/
def jsAbs (a : ℚ) : ℚ := if a < 0 then -a else a

/-- Comparator `(a, b) => a.timestamp - b.timestamp` on transactions, as the
total preorder `a.timestamp ≤ b.timestamp` used by the stable sort. -/
def txLe (a b : Transaction) : Prop := a.timestamp ≤ b.timestamp

instance : DecidableRel txLe := fun a b =>
  inferInstanceAs (Decidable (a.timestamp ≤ b.timestamp))

/-- FIFO comparator `(a, b) => a.timestamp - b.timestamp`: oldest first. -/
def fifoLe (a b : CostBasisLot) : Prop := a.timestamp ≤ b.timestamp

instance : DecidableRel fifoLe := fun a b =>
  inferInstanceAs (Decidable (a.timestamp ≤ b.timestamp))

/-- LIFO comparator `(a, b) => b.timestamp - a.timestamp`: newest first. -/
def lifoLe (a b : CostBasisLot) : Prop := b.timestamp ≤ a.timestamp

instance : DecidableRel lifoLe := fun a b =>
  inferInstanceAs (Decidable (b.timestamp ≤ a.timestamp))

/-- HIFO comparator `(a, b) => b.costPerUnit - a.costPerUnit`: highest cost first. -/
def hifoLe (a b : CostBasisLot) : Prop := b.costPerUnit ≤ a.costPerUnit

instance : DecidableRel hifoLe := fun a b =>
  inferInstanceAs (Decidable (b.costPerUnit ≤ a.costPerUnit))

/-- `getLotsForMethod` from `cost-basis.ts`: filter the available lots
(`remainingAmount > 0`) and stably sort them by the comparator of the method. -/
def getLotsForMethod (lots : List CostBasisLot) (m : CostBasisMethod) : List CostBasisLot :=
  let available := lots.filter (fun l => 0 < l.remainingAmount)
  match m with
  | .LIFO => available.insertionSort lifoLe
  | .HIFO => available.insertionSort hifoLe
  | .FIFO => available.insertionSort fifoLe

/-- `lots.find(l => l.id === lot.id)` followed by
`originalLot.remainingAmount -= amountFromThisLot`: decrement the first lot
with the given id (no-op when absent, matching the `if (originalLot)` guard). -/
def decrementFirst (i : ℕ) (amt : ℚ) : List CostBasisLot → List CostBasisLot
  | [] => []
  | l :: rest =>
    if l.id = i then { l with remainingAmount := l.remainingAmount - amt } :: rest
    else l :: decrementFirst i amt rest

/-- Mutable state of the `for (const lot of orderedLots)` consumption loop. -/
structure ConsumeState where
  remainingToSell : ℚ
  lots : List CostBasisLot
  totalCostBasis : ℚ
  lotsUsed : List LotUse
  deriving DecidableEq, Repr

/-- The `for (const lot of orderedLots)` loop of the `sell` branch.  The loop
iterates over the sorted snapshot; the `remainingAmount` of each ordered lot is its
value at sale start (in the source the sorted array shares lot objects with
`lots`, and — the ids within the lot list of one asset being distinct — no earlier
iteration of the same sale has touched the object being read). -/
def consumeLots : List CostBasisLot → ConsumeState → ConsumeState
  | [], s => s
  | lot :: rest, s =>
    if s.remainingToSell ≤ 0 then s
    else if lot.remainingAmount ≤ 0 then consumeLots rest s
    else
      let amountFromThisLot := jsMin lot.remainingAmount s.remainingToSell
      let costFromThisLot := amountFromThisLot * lot.costPerUnit
      consumeLots rest
        { remainingToSell := s.remainingToSell - amountFromThisLot
          lots := decrementFirst lot.id amountFromThisLot s.lots
          totalCostBasis := s.totalCostBasis + costFromThisLot
          lotsUsed := s.lotsUsed ++
            [{ lotId := lot.id, amountUsed := amountFromThisLot,
               costPerUnit := lot.costPerUnit, cost := costFromThisLot }] }

/-- Accumulator state of the `for (const tx of sortedTx)` loop: the id-supply
counter, `lotsByAsset`, `sales`, `totalGains`, `totalLosses`. -/
structure CalcState where
  counter : ℕ
  lotsByAsset : List (String × List CostBasisLot)
  sales : List SaleResult
  totalGains : ℚ
  totalLosses : ℚ
  deriving DecidableEq, Repr

/-- Initial accumulator state. -/
def initState : CalcState :=
  { counter := 0, lotsByAsset := [], sales := [], totalGains := 0, totalLosses := 0 }

/-- Body of the `for (const tx of sortedTx)` loop in `calculateCostBasis`.
`g` is the lot-id supply (see module docstring). -/
def processTx (g : ℕ → ℕ) (method : CostBasisMethod) (σ : CalcState)
    (tx : Transaction) : CalcState :=
  let asset := tx.asset.toUpper
  match tx.type with
  | .buy | .airdrop | .transfer =>
    -- `tx.valueEur || 0` (on an exact rational this is the identity).
    let effectiveValueEur := if tx.valueEur = 0 then 0 else tx.valueEur
    let costPerUnit := if 0 < tx.amount then effectiveValueEur / tx.amount else 0
    let cur := (assocFind asset σ.lotsByAsset).getD []
    let newLot : CostBasisLot :=
      { id := g σ.counter, asset := asset, amount := tx.amount,
        remainingAmount := tx.amount, costPerUnit := costPerUnit,
        totalCost := effectiveValueEur, timestamp := tx.timestamp, txHash := tx.hash }
    { σ with
        counter := σ.counter + 1
        lotsByAsset := assocSet asset (cur ++ [newLot]) σ.lotsByAsset }
  | .sell =>
    let lots := (assocFind asset σ.lotsByAsset).getD []
    let orderedLots := getLotsForMethod lots method
    let res := consumeLots orderedLots
      { remainingToSell := tx.amount, lots := lots, totalCostBasis := 0, lotsUsed := [] }
    let proceeds := tx.valueEur
    let gainLoss := proceeds - res.totalCostBasis
    let sale : SaleResult :=
      { transaction := tx, proceeds := proceeds, costBasis := res.totalCostBasis,
        gainLoss := gainLoss, lotsUsed := res.lotsUsed }
    { σ with
        -- reading `lotsByAsset[asset] || []` does not create the key; the
        -- in-place mutations land only when the key already exists
        lotsByAsset :=
          match assocFind asset σ.lotsByAsset with
          | some _ => assocSet asset res.lots σ.lotsByAsset
          | none => σ.lotsByAsset
        sales := σ.sales ++ [sale]
        totalGains := if 0 < gainLoss then σ.totalGains + gainLoss else σ.totalGains
        totalLosses := if 0 < gainLoss then σ.totalLosses else σ.totalLosses + jsAbs gainLoss }
  | .stake => σ

/-- The timestamp normalization of `calculateCostBasis`: values below `10^12`
are taken to be seconds and scaled to milliseconds. -/
def normalizeTx (tx : Transaction) : Transaction :=
  { tx with
      timestamp :=
        if tx.timestamp < 1000000000000 then tx.timestamp * 1000 else tx.timestamp }

/-- Body of the `unrealizedGains` loop of `calculateCostBasis` for one asset:
sum `remainingAmount` and `remainingAmount * costPerUnit` over the lots with
`remainingAmount > 0`, and report the asset when the total is positive. -/
def unrealizedEntryFor (p : String × List CostBasisLot) :
    Option (String × UnrealizedEntry) :=
  let remainingLots := p.2.filter (fun l => 0 < l.remainingAmount)
  let totalAmount := sumBy (fun l => l.remainingAmount) remainingLots
  let totalCostBasis := sumBy (fun l => l.remainingAmount * l.costPerUnit) remainingLots
  if 0 < totalAmount then
    some (p.1, { amount := totalAmount, costBasis := totalCostBasis,
                 avgCost := totalCostBasis / totalAmount })
  else none

/-- The `unrealizedGains` aggregation at the end of `calculateCostBasis`. -/
def computeUnrealized (m : List (String × List CostBasisLot)) :
    List (String × UnrealizedEntry) :=
  m.filterMap unrealizedEntryFor

/-- `calculateCostBasis` from `cost-basis.ts`, parameterized by the lot-id
supply `g` (the source derives ids from `Date.now()` and `Math.random()`). -/
def calculateCostBasis (g : ℕ → ℕ) (transactions : List Transaction)
    (method : CostBasisMethod) : CostBasisResult :=
  let normalizedTx := transactions.map normalizeTx
  let sortedTx := normalizedTx.insertionSort txLe
  let final := sortedTx.foldl (processTx g method) initState
  let allLots := (final.lotsByAsset.map Prod.snd).flatten
  { lots := allLots
    sales := final.sales
    totalGains := final.totalGains
    totalLosses := final.totalLosses
    netGain := final.totalGains - final.totalLosses
    unrealizedGains := computeUnrealized final.lotsByAsset }

/-- Civil (proleptic-Gregorian) year of a day count relative to 1970-01-01,
via the standard civil-from-days date algorithm with floor division. -/
def yearOfEpochDay (z : ℤ) : ℤ :=
  let d := z + 719468
  let era := Int.fdiv d 146097
  let doe := d - era * 146097
  let yoe := Int.fdiv (doe - Int.fdiv doe 1460 + Int.fdiv doe 36524 - Int.fdiv doe 146096) 365
  let y := yoe + era * 400
  let doy := doe - (365 * yoe + Int.fdiv yoe 4 - Int.fdiv yoe 100)
  let mp := Int.fdiv (5 * doy + 2) 153
  let m := if mp < 10 then mp + 3 else mp - 9
  if m ≤ 2 then y + 1 else y

/-- Floor of a rational (the representation being reduced with positive
denominator, this is floor division of numerator by denominator). -/
def ratFloor (q : ℚ) : ℤ := Int.fdiv q.num q.den

/-- Model of `new Date(ms).getFullYear()` (UTC idealization of the platform
primitive): the civil year of the day containing the given epoch millisecond. -/
def getFullYearOfMs (ms : ℚ) : ℤ :=
  yearOfEpochDay (ratFloor (ms / 86400000))

/-- The record returned by `filterTaxResultsByYear`. -/
structure FilteredTaxResult where
  totalGains : ℚ
  totalLosses : ℚ
  netGain : ℚ
  taxableEvents : List SaleResult
  deriving DecidableEq, Repr

/-- `filterTaxResultsByYear` from `cost-basis.ts`.  The source takes the whole
`calculateCostBasis` result but reads only its `sales` field, which is the
argument here. -/
def filterTaxResultsByYear (sales : List SaleResult) (year : ℤ) : FilteredTaxResult :=
  let taxableEvents := sales.filter
    (fun sale => getFullYearOfMs sale.transaction.timestamp = year)
  let totalGains := sumBy (fun s => jsMax 0 s.gainLoss) taxableEvents
  let totalLosses := sumBy (fun s => jsAbs (jsMin 0 s.gainLoss)) taxableEvents
  { totalGains := totalGains
    totalLosses := totalLosses
    netGain := totalGains - totalLosses
    taxableEvents := taxableEvents }

/-- One entry of the `byAsset` record returned by `calculateUnrealizedGains`. -/
structure UGEntry where
  amount : ℚ
  costBasis : ℚ
  currentValue : ℚ
  unrealizedGainLoss : ℚ
  deriving DecidableEq, Repr

/-- The record returned by `calculateUnrealizedGains`. -/
structure UGResult where
  totalUnrealizedGain : ℚ
  totalUnrealizedLoss : ℚ
  byAsset : List (String × UGEntry)
  deriving DecidableEq, Repr

/-- JavaScript `x || d` on an (optional) number: a missing or zero value falls
through to the default. -/
def jsNumOr (o : Option ℚ) (d : ℚ) : ℚ :=
  match o with
  | some v => if v = 0 then d else v
  | none => d

/-- `currentPrices[asset] || currentPrices[asset.toUpperCase()] || 0`. -/
def jsPriceLookup (currentPrices : List (String × ℚ)) (asset : String) : ℚ :=
  jsNumOr (assocFind asset currentPrices) (jsNumOr (assocFind asset.toUpper currentPrices) 0)

/-- The `byAsset` entry `calculateUnrealizedGains` computes for one asset:
current value at the looked-up price, and the sanity-checked
`unrealizedGainLoss` (`0` when `costBasis === 0 || costBasis < 0.01`; capped
at `currentValue * 0.5` when the raw gain exceeds `currentValue`). -/
def ugEntryValue (currentPrices : List (String × ℚ)) (asset : String)
    (data : UnrealizedEntry) : UGEntry :=
  let currentPrice := jsPriceLookup currentPrices asset
  let currentValue := data.amount * currentPrice
  let rawGainLoss := currentValue - data.costBasis
  { amount := data.amount
    costBasis := data.costBasis
    currentValue := currentValue
    unrealizedGainLoss :=
      if data.costBasis = 0 ∨ data.costBasis < 1 / 100 then 0
      else if currentValue < rawGainLoss then currentValue * (1 / 2)
      else rawGainLoss }

/-- Body of the `for (const [asset, data] of Object.entries(...))` loop of
`calculateUnrealizedGains`. -/
def ugStep (currentPrices : List (String × ℚ)) (σ : UGResult)
    (p : String × UnrealizedEntry) : UGResult :=
  let entry := ugEntryValue currentPrices p.1 p.2
  { totalUnrealizedGain :=
      if 0 < entry.unrealizedGainLoss then σ.totalUnrealizedGain + entry.unrealizedGainLoss
      else σ.totalUnrealizedGain
    totalUnrealizedLoss :=
      if 0 < entry.unrealizedGainLoss then σ.totalUnrealizedLoss
      else σ.totalUnrealizedLoss + jsAbs entry.unrealizedGainLoss
    byAsset := assocSet p.1 entry σ.byAsset }

/-- `calculateUnrealizedGains` from `cost-basis.ts`. -/
def calculateUnrealizedGains (unrealizedGains : List (String × UnrealizedEntry))
    (currentPrices : List (String × ℚ)) : UGResult :=
  unrealizedGains.foldl (ugStep currentPrices)
    { totalUnrealizedGain := 0, totalUnrealizedLoss := 0, byAsset := [] }

/-! ### Basic lemmas about the helper functions -/

theorem sumBy_go {β : Type} (f : β → ℚ) (l : List β) (s : ℚ) :
    l.foldl (fun s x => s + f x) s = s + sumBy f l := by
  induction l generalizing s with
  | nil => simp [sumBy]
  | cons x xs ih =>
    simp only [List.foldl_cons, sumBy]
    rw [ih (s + f x), ih (0 + f x)]
    ring

theorem sumBy_nil {β : Type} (f : β → ℚ) : sumBy f [] = 0 := rfl

theorem sumBy_cons {β : Type} (f : β → ℚ) (x : β) (l : List β) :
    sumBy f (x :: l) = f x + sumBy f l := by
  show List.foldl _ 0 (x :: l) = _
  rw [List.foldl_cons, sumBy_go]
  ring

theorem sumBy_append {β : Type} (f : β → ℚ) (l₁ l₂ : List β) :
    sumBy f (l₁ ++ l₂) = sumBy f l₁ + sumBy f l₂ := by
  induction l₁ with
  | nil => simp [sumBy_nil, sumBy]
  | cons x xs ih => simp only [List.cons_append, sumBy_cons, ih]; ring

theorem sumBy_eq_sum_map {β : Type} (f : β → ℚ) (l : List β) :
    sumBy f l = (l.map f).sum := by
  induction l with
  | nil => simp [sumBy_nil]
  | cons x xs ih => simp [sumBy_cons, ih]

theorem sumBy_nonneg {β : Type} {f : β → ℚ} {l : List β}
    (h : ∀ x ∈ l, 0 ≤ f x) : 0 ≤ sumBy f l := by
  induction l with
  | nil => simp [sumBy_nil]
  | cons x xs ih =>
    rw [sumBy_cons]
    have := h x (by simp)
    have := ih (fun y hy => h y (by simp [hy]))
    linarith

theorem sumBy_perm {β : Type} (f : β → ℚ) {l₁ l₂ : List β} (h : l₁.Perm l₂) :
    sumBy f l₁ = sumBy f l₂ := by
  rw [sumBy_eq_sum_map, sumBy_eq_sum_map]
  exact (h.map f).sum_eq

theorem jsMin_eq_min (a b : ℚ) : jsMin a b = min a b := by
  simp [jsMin, min_def]

theorem jsMax_eq_max (a b : ℚ) : jsMax a b = max a b := by
  rw [jsMax, max_def]

theorem jsAbs_eq_abs (a : ℚ) : jsAbs a = |a| := by
  rcases lt_or_le a 0 with h | h
  · rw [jsAbs, if_pos h, abs_of_neg h]
  · rw [jsAbs, if_neg (not_lt.mpr h), abs_of_nonneg h]

theorem jsAbs_nonneg (a : ℚ) : 0 ≤ jsAbs a := by
  rw [jsAbs_eq_abs]; exact abs_nonneg a

/-! ### C1: lot consumption order -/

instance : IsTotal CostBasisLot fifoLe := ⟨fun a b => le_total a.timestamp b.timestamp⟩

instance : IsTrans CostBasisLot fifoLe :=
  ⟨fun _ _ _ hab hbc => le_trans (α := ℚ) hab hbc⟩

instance : IsTotal CostBasisLot lifoLe := ⟨fun a b => le_total b.timestamp a.timestamp⟩

instance : IsTrans CostBasisLot lifoLe :=
  ⟨fun _ _ _ hab hbc => le_trans (α := ℚ) hbc hab⟩

instance : IsTotal CostBasisLot hifoLe := ⟨fun a b => le_total b.costPerUnit a.costPerUnit⟩

instance : IsTrans CostBasisLot hifoLe :=
  ⟨fun _ _ _ hab hbc => le_trans (α := ℚ) hbc hab⟩

/-- A fixed id supply (the identity), standing in for one concrete draw of the
clock/random id generator. -/
def idSupply0 : ℕ → ℕ := fun n => n

/-- A second id supply, standing in for a different draw of the clock/random
id generator. -/
def idSupply1 : ℕ → ℕ := fun n => n + 1

/-- Three acquisitions of one unit each with costs 30, 10, 20 (in that
chronological order) followed by a sale of two units. -/
def orderingExampleTxs : List Transaction :=
  [ { id := "a", walletId := "w", hash := "a", type := .buy, asset := "BTC",
      amount := 1, valueEur := 30, timestamp := 1 },
    { id := "b", walletId := "w", hash := "b", type := .buy, asset := "BTC",
      amount := 1, valueEur := 10, timestamp := 2 },
    { id := "c", walletId := "w", hash := "c", type := .buy, asset := "BTC",
      amount := 1, valueEur := 20, timestamp := 3 },
    { id := "d", walletId := "w", hash := "d", type := .sell, asset := "BTC",
      amount := 2, valueEur := 100, timestamp := 4 } ]

/-- The per-unit costs of the lots consumed by each sale of a run. -/
def consumedCosts (r : CostBasisResult) : List (List ℚ) :=
  r.sales.map (fun s => s.lotsUsed.map (fun u => u.costPerUnit))

/-- C1.  For every lot list, `getLotsForMethod` returns exactly the available
lots (`remainingAmount > 0`), ordered oldest-timestamp-first for FIFO,
newest-timestamp-first for LIFO, and highest-costPerUnit-first for HIFO; and on
three one-unit lots with per-unit costs 30, 10, 20 acquired in that
chronological order, a sale of two units consumes the lots costed
[30, 10] under FIFO, [20, 10] under LIFO, and [30, 20] under HIFO. -/
theorem c1_method_determined_consumption_order :
    (∀ lots : List CostBasisLot,
      (getLotsForMethod lots .FIFO).Perm (lots.filter (fun l => 0 < l.remainingAmount)) ∧
      List.Sorted fifoLe (getLotsForMethod lots .FIFO)) ∧
    (∀ lots : List CostBasisLot,
      (getLotsForMethod lots .LIFO).Perm (lots.filter (fun l => 0 < l.remainingAmount)) ∧
      List.Sorted lifoLe (getLotsForMethod lots .LIFO)) ∧
    (∀ lots : List CostBasisLot,
      (getLotsForMethod lots .HIFO).Perm (lots.filter (fun l => 0 < l.remainingAmount)) ∧
      List.Sorted hifoLe (getLotsForMethod lots .HIFO)) ∧
    consumedCosts (calculateCostBasis idSupply0 orderingExampleTxs .FIFO) = [[30, 10]] ∧
    consumedCosts (calculateCostBasis idSupply0 orderingExampleTxs .LIFO) = [[20, 10]] ∧
    consumedCosts (calculateCostBasis idSupply0 orderingExampleTxs .HIFO) = [[30, 20]] := by
  refine ⟨fun lots => ⟨?_, ?_⟩, fun lots => ⟨?_, ?_⟩, fun lots => ⟨?_, ?_⟩, ?_, ?_, ?_⟩
  · exact List.perm_insertionSort fifoLe _
  · exact List.sorted_insertionSort fifoLe _
  · exact List.perm_insertionSort lifoLe _
  · exact List.sorted_insertionSort lifoLe _
  · exact List.perm_insertionSort hifoLe _
  · exact List.sorted_insertionSort hifoLe _
  · with_unfolding_all decide
  · with_unfolding_all decide
  · with_unfolding_all decide

/-! ### C9: sign invariants of the aggregate results -/

theorem processTx_totalGains_mono (g : ℕ → ℕ) (m : CostBasisMethod) (σ : CalcState)
    (tx : Transaction) : σ.totalGains ≤ (processTx g m σ tx).totalGains := by
  rw [processTx]
  rcases tx.type <;> simp only
  case sell =>
    split
    · linarith [show (0:ℚ) < _ from by assumption]
    · exact le_refl _
  all_goals exact le_refl _

theorem processTx_totalLosses_mono (g : ℕ → ℕ) (m : CostBasisMethod) (σ : CalcState)
    (tx : Transaction) : σ.totalLosses ≤ (processTx g m σ tx).totalLosses := by
  rw [processTx]
  rcases tx.type <;> simp only
  case sell =>
    split
    · exact le_refl _
    · linarith [jsAbs_nonneg ((fun s => s.valueEur - (consumeLots (getLotsForMethod ((assocFind s.asset.toUpper σ.lotsByAsset).getD []) m) { remainingToSell := s.amount, lots := (assocFind s.asset.toUpper σ.lotsByAsset).getD [], totalCostBasis := 0, lotsUsed := [] }).totalCostBasis) tx)]
  all_goals exact le_refl _

theorem foldl_totalGains_nonneg (g : ℕ → ℕ) (m : CostBasisMethod) (txs : List Transaction)
    (σ : CalcState) (h : 0 ≤ σ.totalGains) :
    0 ≤ (txs.foldl (processTx g m) σ).totalGains := by
  induction txs generalizing σ with
  | nil => exact h
  | cons tx rest ih =>
    exact ih _ (le_trans h (processTx_totalGains_mono g m σ tx))

theorem foldl_totalLosses_nonneg (g : ℕ → ℕ) (m : CostBasisMethod) (txs : List Transaction)
    (σ : CalcState) (h : 0 ≤ σ.totalLosses) :
    0 ≤ (txs.foldl (processTx g m) σ).totalLosses := by
  induction txs generalizing σ with
  | nil => exact h
  | cons tx rest ih =>
    exact ih _ (le_trans h (processTx_totalLosses_mono g m σ tx))

/-- C9.  In every `calculateCostBasis` result and every `filterTaxResultsByYear`
result, `totalGains` and `totalLosses` are non-negative and `netGain` equals
`totalGains - totalLosses`. -/
theorem c9_gain_loss_sign_invariants :
    (∀ (g : ℕ → ℕ) (txs : List Transaction) (m : CostBasisMethod),
      0 ≤ (calculateCostBasis g txs m).totalGains ∧
      0 ≤ (calculateCostBasis g txs m).totalLosses ∧
      (calculateCostBasis g txs m).netGain =
        (calculateCostBasis g txs m).totalGains - (calculateCostBasis g txs m).totalLosses) ∧
    (∀ (sales : List SaleResult) (year : ℤ),
      0 ≤ (filterTaxResultsByYear sales year).totalGains ∧
      0 ≤ (filterTaxResultsByYear sales year).totalLosses ∧
      (filterTaxResultsByYear sales year).netGain =
        (filterTaxResultsByYear sales year).totalGains -
          (filterTaxResultsByYear sales year).totalLosses) := by
  constructor
  · intro g txs m
    refine ⟨?_, ?_, rfl⟩
    · exact foldl_totalGains_nonneg g m _ initState (le_refl 0)
    · exact foldl_totalLosses_nonneg g m _ initState (le_refl 0)
  · intro sales year
    refine ⟨?_, ?_, rfl⟩
    · exact sumBy_nonneg (fun s _ => by rw [jsMax_eq_max]; exact le_max_left 0 _)
    · exact sumBy_nonneg (fun s _ => jsAbs_nonneg _)

/-! ### C8: year-filter idempotence -/

/-- C8.  Year filtering is idempotent: re-filtering the taxable events of a
filtered result by the same year reproduces that result. -/
theorem c8_year_filter_idempotent (sales : List SaleResult) (year : ℤ) :
    filterTaxResultsByYear (filterTaxResultsByYear sales year).taxableEvents year =
      filterTaxResultsByYear sales year := by
  rw [filterTaxResultsByYear, filterTaxResultsByYear]
  simp only [List.filter_filter, Bool.and_self]

/-! ### C5: the cost basis of every sale is exactly the cost of the lots consumed -/

theorem consumeLots_totalCostBasis (ordered : List CostBasisLot) (s : ConsumeState) :
    (consumeLots ordered s).totalCostBasis -
        sumBy (fun u => u.cost) (consumeLots ordered s).lotsUsed =
      s.totalCostBasis - sumBy (fun u => u.cost) s.lotsUsed := by
  induction ordered generalizing s with
  | nil => rfl
  | cons lot rest ih =>
    rw [consumeLots]
    split
    · rfl
    · split
      · exact ih s
      · rw [ih]
        simp only [sumBy_append, sumBy_cons, sumBy_nil]
        ring

theorem processTx_sale_shape (g : ℕ → ℕ) (m : CostBasisMethod) (σ : CalcState)
    (tx : Transaction)
    (h : ∀ s ∈ σ.sales,
      s.costBasis = sumBy (fun u => u.cost) s.lotsUsed ∧
      s.gainLoss = s.proceeds - s.costBasis) :
    ∀ s ∈ (processTx g m σ tx).sales,
      s.costBasis = sumBy (fun u => u.cost) s.lotsUsed ∧
      s.gainLoss = s.proceeds - s.costBasis := by
  intro s hs
  rw [processTx] at hs
  cases htx : tx.type <;> rw [htx] at hs <;> simp only at hs
  case sell =>
    rcases List.mem_append.mp hs with hold | hnew
    · exact h s hold
    · rcases List.mem_singleton.mp hnew with rfl
      refine ⟨?_, rfl⟩
      have := consumeLots_totalCostBasis
        (getLotsForMethod ((assocFind tx.asset.toUpper σ.lotsByAsset).getD []) m)
        { remainingToSell := tx.amount,
          lots := (assocFind tx.asset.toUpper σ.lotsByAsset).getD [],
          totalCostBasis := 0, lotsUsed := [] }
      simp only [sumBy_nil] at this
      linarith
  all_goals exact h s hs

theorem foldl_sale_shape (g : ℕ → ℕ) (m : CostBasisMethod) (txs : List Transaction)
    (σ : CalcState)
    (h : ∀ s ∈ σ.sales,
      s.costBasis = sumBy (fun u => u.cost) s.lotsUsed ∧
      s.gainLoss = s.proceeds - s.costBasis) :
    ∀ s ∈ (txs.foldl (processTx g m) σ).sales,
      s.costBasis = sumBy (fun u => u.cost) s.lotsUsed ∧
      s.gainLoss = s.proceeds - s.costBasis := by
  induction txs generalizing σ with
  | nil => exact h
  | cons tx rest ih => exact ih _ (processTx_sale_shape g m σ tx h)

/-- The unknown-cost-basis scenario: an incoming transfer of 1 SOL with
`valueEur = 0`, followed by a sale of that unit for 100. -/
def unknownBasisTxs : List Transaction :=
  [ { id := "t1", walletId := "w", hash := "t1", type := .transfer, asset := "SOL",
      amount := 1, valueEur := 0, timestamp := 1 },
    { id := "t2", walletId := "w", hash := "t2", type := .sell, asset := "SOL",
      amount := 1, valueEur := 100, timestamp := 2 } ]

/-- A genuine over-sell: 1 unit acquired for 10, then 2 units sold for 100.
Only the single available lot is consumed; the shortfall carries no basis. -/
def oversellTxs : List Transaction :=
  [ { id := "t1", walletId := "w", hash := "t1", type := .buy, asset := "BTC",
      amount := 1, valueEur := 10, timestamp := 1 },
    { id := "t2", walletId := "w", hash := "t2", type := .sell, asset := "BTC",
      amount := 2, valueEur := 100, timestamp := 2 } ]

/-- C5.  For every sale, `costBasis` is exactly the summed cost of the lots it
consumed and `gainLoss` is proceeds minus that cost (so any over-sold
shortfall contributes zero basis); concretely, a transfer of 1 SOL at
`valueEur = 0` followed by a sale for 100 realizes a gain of 100, and an
over-sell of 2 units against a single 1-unit lot costed 10 realizes basis 10
and gain 90. -/
theorem c5_shortfall_costed_at_zero_basis :
    (∀ (g : ℕ → ℕ) (txs : List Transaction) (m : CostBasisMethod),
      ∀ s ∈ (calculateCostBasis g txs m).sales,
        s.costBasis = sumBy (fun u => u.cost) s.lotsUsed ∧
        s.gainLoss = s.proceeds - s.costBasis) ∧
    (calculateCostBasis idSupply0 unknownBasisTxs .FIFO).sales.map
      (fun s => s.gainLoss) = [100] ∧
    (calculateCostBasis idSupply0 unknownBasisTxs .FIFO).totalGains = 100 ∧
    (calculateCostBasis idSupply0 oversellTxs .FIFO).sales.map
      (fun s => (s.costBasis, s.gainLoss)) = [(10, 90)] := by
  refine ⟨?_, ?_, ?_, ?_⟩
  · intro g txs m
    exact foldl_sale_shape g m _ initState (by intro s hs; cases hs)
  · with_unfolding_all decide
  · with_unfolding_all decide
  · with_unfolding_all decide

/-- A placeholder sale used only to select the first sale of a concrete run. -/
def dummySale : SaleResult :=
  { transaction :=
      { id := "", walletId := "", hash := "", type := .sell, asset := "",
        amount := 0, valueEur := 0, timestamp := 0 },
    proceeds := 0, costBasis := 0, gainLoss := 0, lotsUsed := [] }

/-- Witness for C5: the membership hypothesis is satisfiable — the first sale
of the unknown-cost-basis run satisfies the stated shape. -/
theorem c5_shortfall_costed_at_zero_basis_witness :
    ((calculateCostBasis idSupply0 unknownBasisTxs .FIFO).sales.getD 0 dummySale ∈
        (calculateCostBasis idSupply0 unknownBasisTxs .FIFO).sales) ∧
    ((calculateCostBasis idSupply0 unknownBasisTxs .FIFO).sales.getD 0 dummySale).costBasis =
      sumBy (fun u => u.cost)
        ((calculateCostBasis idSupply0 unknownBasisTxs .FIFO).sales.getD 0 dummySale).lotsUsed ∧
    ((calculateCostBasis idSupply0 unknownBasisTxs .FIFO).sales.getD 0 dummySale).gainLoss =
      ((calculateCostBasis idSupply0 unknownBasisTxs .FIFO).sales.getD 0 dummySale).proceeds -
        ((calculateCostBasis idSupply0 unknownBasisTxs .FIFO).sales.getD 0 dummySale).costBasis := by
  refine ⟨by with_unfolding_all decide, ?_, ?_⟩
  · exact (c5_shortfall_costed_at_zero_basis.1 idSupply0 unknownBasisTxs .FIFO _
      (by with_unfolding_all decide)).1
  · exact (c5_shortfall_costed_at_zero_basis.1 idSupply0 unknownBasisTxs .FIFO _
      (by with_unfolding_all decide)).2

/-! ### C2: lot conservation and non-negativity -/

theorem jsMin_le_left (a b : ℚ) : jsMin a b ≤ a := by
  rw [jsMin]; split
  · exact le_rfl
  · exact le_of_not_le (by assumption)

theorem jsMin_le_right (a b : ℚ) : jsMin a b ≤ b := by
  rw [jsMin]; split
  · assumption
  · exact le_rfl

theorem decrementFirst_map_id (i : ℕ) (amt : ℚ) (lots : List CostBasisLot) :
    (decrementFirst i amt lots).map (fun l => l.id) = lots.map (fun l => l.id) := by
  induction lots with
  | nil => rfl
  | cons l rest ih =>
    rw [decrementFirst]
    split
    · simp
    · simp [ih]

theorem decrementFirst_sumRem (i : ℕ) (amt : ℚ) {lots : List CostBasisLot}
    (h : i ∈ lots.map (fun l => l.id)) :
    sumBy (fun l => l.remainingAmount) (decrementFirst i amt lots) =
      sumBy (fun l => l.remainingAmount) lots - amt := by
  induction lots with
  | nil => simp at h
  | cons l rest ih =>
    rw [decrementFirst]
    split
    · simp only [sumBy_cons]; ring
    · rename_i hlid
      simp only [List.map_cons] at h
      have h' : i ∈ rest.map (fun l => l.id) := by
        rcases List.mem_cons.mp h with h0 | h0
        · exact absurd h0.symm hlid
        · exact h0
      rw [sumBy_cons, sumBy_cons, ih h']
      ring

theorem decrementFirst_mem_of_ne {o : CostBasisLot} {lots : List CostBasisLot}
    (ho : o ∈ lots) {i : ℕ} (hne : o.id ≠ i) (amt : ℚ) :
    o ∈ decrementFirst i amt lots := by
  induction lots with
  | nil => cases ho
  | cons l rest ih =>
    rw [decrementFirst]
    rcases List.mem_cons.mp ho with rfl | ho'
    · rw [if_neg hne]
      exact List.mem_cons_self _ _
    · split
      · exact List.mem_cons_of_mem _ ho'
      · exact List.mem_cons_of_mem _ (ih ho')

theorem decrementFirst_nonneg {lot : CostBasisLot} {lots : List CostBasisLot}
    (hmem : lot ∈ lots) (hnodup : (lots.map (fun l => l.id)).Nodup) {amt : ℚ}
    (hamt : amt ≤ lot.remainingAmount)
    (hnn : ∀ l ∈ lots, 0 ≤ l.remainingAmount) :
    ∀ l ∈ decrementFirst lot.id amt lots, 0 ≤ l.remainingAmount := by
  induction lots with
  | nil => cases hmem
  | cons h rest ih =>
    intro l hl
    rw [decrementFirst] at hl
    rw [List.map_cons, List.nodup_cons] at hnodup
    by_cases hid : h.id = lot.id
    · rw [if_pos hid] at hl
      have hhl : h = lot := by
        rcases List.mem_cons.mp hmem with h1 | h1
        · exact h1.symm
        · exact absurd (hid ▸ List.mem_map.mpr ⟨lot, h1, rfl⟩) hnodup.1
      rcases List.mem_cons.mp hl with rfl | h2
      · simp only
        have := hnn h (List.mem_cons_self _ _)
        rw [hhl] at this ⊢
        linarith
      · exact hnn l (List.mem_cons_of_mem _ h2)
    · rw [if_neg hid] at hl
      rcases List.mem_cons.mp hl with rfl | h2
      · exact hnn l (List.mem_cons_self _ _)
      · have hlotrest : lot ∈ rest := by
          rcases List.mem_cons.mp hmem with h1 | h1
          · exact absurd (h1 ▸ rfl) hid
          · exact h1
        exact ih hlotrest hnodup.2 (fun x hx => hnn x (List.mem_cons_of_mem _ hx)) l h2

theorem consumeLots_master (os : List CostBasisLot) (s : ConsumeState)
    (hosid : (os.map (fun l => l.id)).Nodup)
    (hosmem : ∀ o ∈ os, o ∈ s.lots)
    (hospos : ∀ o ∈ os, 0 < o.remainingAmount)
    (hnodup : (s.lots.map (fun l => l.id)).Nodup)
    (hnn : ∀ l ∈ s.lots, 0 ≤ l.remainingAmount) :
    (consumeLots os s).lots.map (fun l => l.id) = s.lots.map (fun l => l.id) ∧
    sumBy (fun l => l.remainingAmount) (consumeLots os s).lots =
      sumBy (fun l => l.remainingAmount) s.lots -
        (s.remainingToSell - (consumeLots os s).remainingToSell) ∧
    (∀ l ∈ (consumeLots os s).lots, 0 ≤ l.remainingAmount) := by
  induction os generalizing s with
  | nil =>
    rw [consumeLots]
    exact ⟨rfl, by ring, hnn⟩
  | cons lot rest ih =>
    by_cases hbr : s.remainingToSell ≤ 0
    · rw [consumeLots, if_pos hbr]
      exact ⟨rfl, by ring, hnn⟩
    · have hlotpos := hospos lot (List.mem_cons_self _ _)
      have hskip : ¬lot.remainingAmount ≤ 0 := not_le.mpr hlotpos
      have hstep : consumeLots (lot :: rest) s = consumeLots rest
          { remainingToSell := s.remainingToSell - jsMin lot.remainingAmount s.remainingToSell
            lots := decrementFirst lot.id (jsMin lot.remainingAmount s.remainingToSell) s.lots
            totalCostBasis :=
              s.totalCostBasis + jsMin lot.remainingAmount s.remainingToSell * lot.costPerUnit
            lotsUsed := s.lotsUsed ++
              [{ lotId := lot.id,
                 amountUsed := jsMin lot.remainingAmount s.remainingToSell,
                 costPerUnit := lot.costPerUnit,
                 cost := jsMin lot.remainingAmount s.remainingToSell * lot.costPerUnit }] } := by
        rw [consumeLots, if_neg hbr, if_neg hskip]
      rw [hstep]
      rw [List.map_cons, List.nodup_cons] at hosid
      have hlotmem : lot ∈ s.lots := hosmem lot (List.mem_cons_self _ _)
      have hamtle : jsMin lot.remainingAmount s.remainingToSell ≤ lot.remainingAmount :=
        jsMin_le_left _ _
      have hmem' : ∀ o ∈ rest,
          o ∈ decrementFirst lot.id (jsMin lot.remainingAmount s.remainingToSell) s.lots := by
        intro o hoo
        refine decrementFirst_mem_of_ne (hosmem o (List.mem_cons_of_mem _ hoo)) ?_ _
        intro hoid
        exact hosid.1 (hoid ▸ List.mem_map.mpr ⟨o, hoo, rfl⟩)
      have hnodup' : ((decrementFirst lot.id (jsMin lot.remainingAmount s.remainingToSell)
          s.lots).map (fun l => l.id)).Nodup := by
        rw [decrementFirst_map_id]; exact hnodup
      have hnn' := decrementFirst_nonneg hlotmem hnodup hamtle hnn
      obtain ⟨ihmap, ihsum, ihnn⟩ := ih
        { remainingToSell := s.remainingToSell - jsMin lot.remainingAmount s.remainingToSell
          lots := decrementFirst lot.id (jsMin lot.remainingAmount s.remainingToSell) s.lots
          totalCostBasis :=
            s.totalCostBasis + jsMin lot.remainingAmount s.remainingToSell * lot.costPerUnit
          lotsUsed := s.lotsUsed ++
            [{ lotId := lot.id,
               amountUsed := jsMin lot.remainingAmount s.remainingToSell,
               costPerUnit := lot.costPerUnit,
               cost := jsMin lot.remainingAmount s.remainingToSell * lot.costPerUnit }] }
        hosid.2 hmem' (fun o ho => hospos o (List.mem_cons_of_mem _ ho)) hnodup' hnn'
      refine ⟨ihmap.trans (decrementFirst_map_id _ _ _), ?_, ihnn⟩
      rw [ihsum]
      simp only
      rw [decrementFirst_sumRem lot.id (jsMin lot.remainingAmount s.remainingToSell)
        (List.mem_map.mpr ⟨lot, hlotmem, rfl⟩)]
      ring

theorem consumeLots_exhausts (os : List CostBasisLot) (s : ConsumeState)
    (hospos : ∀ o ∈ os, 0 < o.remainingAmount)
    (h0 : 0 ≤ s.remainingToSell)
    (hle : s.remainingToSell ≤ sumBy (fun l => l.remainingAmount) os) :
    (consumeLots os s).remainingToSell = 0 := by
  induction os generalizing s with
  | nil =>
    rw [consumeLots]
    rw [sumBy_nil] at hle
    exact le_antisymm hle h0
  | cons lot rest ih =>
    by_cases hbr : s.remainingToSell ≤ 0
    · rw [consumeLots, if_pos hbr]
      exact le_antisymm hbr h0
    · have hlotpos := hospos lot (List.mem_cons_self _ _)
      have hskip : ¬lot.remainingAmount ≤ 0 := not_le.mpr hlotpos
      have hstep : consumeLots (lot :: rest) s = consumeLots rest
          { remainingToSell := s.remainingToSell - jsMin lot.remainingAmount s.remainingToSell
            lots := decrementFirst lot.id (jsMin lot.remainingAmount s.remainingToSell) s.lots
            totalCostBasis :=
              s.totalCostBasis + jsMin lot.remainingAmount s.remainingToSell * lot.costPerUnit
            lotsUsed := s.lotsUsed ++
              [{ lotId := lot.id,
                 amountUsed := jsMin lot.remainingAmount s.remainingToSell,
                 costPerUnit := lot.costPerUnit,
                 cost := jsMin lot.remainingAmount s.remainingToSell * lot.costPerUnit }] } := by
        rw [consumeLots, if_neg hbr, if_neg hskip]
      rw [hstep]
      apply ih _ (fun o ho => hospos o (List.mem_cons_of_mem _ ho))
      · simp only
        have := jsMin_le_right lot.remainingAmount s.remainingToSell
        linarith
      · simp only
        rw [sumBy_cons] at hle
        have hrestnn : 0 ≤ sumBy (fun l => l.remainingAmount) rest :=
          sumBy_nonneg (fun o ho => le_of_lt (hospos o (List.mem_cons_of_mem _ ho)))
        rw [jsMin]
        split
        · linarith
        · linarith

theorem sumRem_filter_pos {lots : List CostBasisLot}
    (hnn : ∀ l ∈ lots, 0 ≤ l.remainingAmount) :
    sumBy (fun l => l.remainingAmount) (lots.filter (fun l => 0 < l.remainingAmount)) =
      sumBy (fun l => l.remainingAmount) lots := by
  induction lots with
  | nil => rfl
  | cons l rest ih =>
    rw [List.filter_cons]
    have ihr := ih (fun x hx => hnn x (List.mem_cons_of_mem _ hx))
    by_cases hpos : 0 < l.remainingAmount
    · rw [if_pos (by simpa using hpos), sumBy_cons, sumBy_cons, ihr]
    · have hz : l.remainingAmount = 0 :=
        le_antisymm (not_lt.mp hpos) (hnn l (List.mem_cons_self _ _))
      rw [if_neg (by simpa using hpos), sumBy_cons, ihr, hz]
      ring

/-- Acquisition-type transactions (`buy`, `airdrop`, incoming `transfer`). -/
def isAcquisition (t : TxType) : Bool :=
  match t with
  | .buy | .airdrop | .transfer => true
  | _ => false

/-- "No over-sell" along a processing run: every `sell` is covered by the
total remaining lot amount of its asset at the time it is processed. -/
def noOverSell (g : ℕ → ℕ) (m : CostBasisMethod) : CalcState → List Transaction → Bool
  | _, [] => true
  | σ, tx :: rest =>
    (if tx.type = .sell then
      decide (tx.amount ≤ sumBy (fun l => l.remainingAmount)
        ((assocFind tx.asset.toUpper σ.lotsByAsset).getD []))
     else true) && noOverSell g m (processTx g m σ tx) rest

/-- The current lot list of the given asset key. -/
def curLots (key : String) (σ : CalcState) : List CostBasisLot :=
  (assocFind key σ.lotsByAsset).getD []

theorem assocFind_assocSet_self {β : Type} (k : String) (v : β) (l : List (String × β)) :
    assocFind k (assocSet k v l) = some v := by
  induction l with
  | nil => simp [assocSet, assocFind]
  | cons p rest ih =>
    rw [assocSet]
    split
    · rw [assocFind, if_pos (by assumption)]
    · rw [assocFind, if_neg (by assumption)]
      exact ih

theorem assocSet_shape {β : Type} (key : String) (v : β) {l : List (String × β)}
    (h : l = [] ∨ ∃ w, l = [(key, w)]) : assocSet key v l = [(key, v)] := by
  rcases h with rfl | ⟨w, rfl⟩
  · rfl
  · simp [assocSet]

/-- Run invariant for a history touching a single asset key: all lots live
under that key, remaining amounts are non-negative, lot ids are distinct,
and every lot id was drawn from the supply below the current counter. -/
def assetInv (g : ℕ → ℕ) (key : String) (σ : CalcState) : Prop :=
  (σ.lotsByAsset = [] ∨ ∃ lots, σ.lotsByAsset = [(key, lots)]) ∧
  (∀ l ∈ curLots key σ, 0 ≤ l.remainingAmount) ∧
  ((curLots key σ).map (fun l => l.id)).Nodup ∧
  (∀ l ∈ curLots key σ, ∃ k, k < σ.counter ∧ l.id = g k)

theorem getLotsForMethod_perm (lots : List CostBasisLot) (m : CostBasisMethod) :
    (getLotsForMethod lots m).Perm (lots.filter (fun l => 0 < l.remainingAmount)) := by
  cases m
  · exact List.perm_insertionSort fifoLe _
  · exact List.perm_insertionSort lifoLe _
  · exact List.perm_insertionSort hifoLe _

theorem processTx_assetInv (g : ℕ → ℕ) (hg : Function.Injective g) (m : CostBasisMethod)
    (key : String) (σ : CalcState) (tx : Transaction)
    (hasset : tx.asset.toUpper = key) (hamt : 0 ≤ tx.amount)
    (hinv : assetInv g key σ)
    (hsell : tx.type = .sell →
      tx.amount ≤ sumBy (fun l => l.remainingAmount) (curLots key σ)) :
    assetInv g key (processTx g m σ tx) ∧
    sumBy (fun l => l.remainingAmount) (curLots key (processTx g m σ tx)) =
      sumBy (fun l => l.remainingAmount) (curLots key σ) +
        (if isAcquisition tx.type then tx.amount else 0) -
        (if tx.type = .sell then tx.amount else 0) := by
  obtain ⟨hshape, hnn, hnodup, hbound⟩ := hinv
  cases htx : tx.type
  case stake =>
    have hstep : processTx g m σ tx = σ := by rw [processTx, htx]
    rw [hstep]
    refine ⟨⟨hshape, hnn, hnodup, hbound⟩, ?_⟩
    simp [isAcquisition, htx]
  case sell =>
    cases hfind : assocFind key σ.lotsByAsset with
    | none =>
      have hcur : curLots key σ = [] := by rw [curLots, hfind]; rfl
      have hamt0 : tx.amount = 0 := by
        have := hsell htx
        rw [hcur, sumBy_nil] at this
        linarith
      have hlots' : (processTx g m σ tx).lotsByAsset = σ.lotsByAsset := by
        rw [processTx, htx]
        simp only [hasset, hfind]
      have hcounter' : (processTx g m σ tx).counter = σ.counter := by
        rw [processTx, htx]
      have hcur' : curLots key (processTx g m σ tx) = curLots key σ := by
        rw [curLots, hlots', curLots]
      refine ⟨⟨?_, ?_, ?_, ?_⟩, ?_⟩
      · rw [hlots']; exact hshape
      · rw [hcur']; exact hnn
      · rw [hcur']; exact hnodup
      · rw [hcur', hcounter']; exact hbound
      · rw [hcur']
        simp [isAcquisition, htx, hamt0]
    | some lots =>
      have hcur : curLots key σ = lots := by rw [curLots, hfind]; rfl
      have hlots' : (processTx g m σ tx).lotsByAsset =
          assocSet key (consumeLots (getLotsForMethod lots m)
            { remainingToSell := tx.amount, lots := lots,
              totalCostBasis := 0, lotsUsed := [] }).lots σ.lotsByAsset := by
        rw [processTx, htx]
        simp only [hasset, hfind, Option.getD_some]
      have hcounter' : (processTx g m σ tx).counter = σ.counter := by
        rw [processTx, htx]
      have hcur' : curLots key (processTx g m σ tx) =
          (consumeLots (getLotsForMethod lots m)
            { remainingToSell := tx.amount, lots := lots,
              totalCostBasis := 0, lotsUsed := [] }).lots := by
        rw [curLots, hlots', assocFind_assocSet_self, Option.getD_some]
      rw [hcur] at hnn hnodup hbound
      have hperm := getLotsForMethod_perm lots m
      have hosmem : ∀ o ∈ getLotsForMethod lots m, o ∈ lots := by
        intro o ho
        exact List.mem_of_mem_filter (hperm.mem_iff.mp ho)
      have hospos : ∀ o ∈ getLotsForMethod lots m, 0 < o.remainingAmount := by
        intro o ho
        have := (List.mem_filter.mp (hperm.mem_iff.mp ho)).2
        exact of_decide_eq_true this
      have hosid : ((getLotsForMethod lots m).map (fun l => l.id)).Nodup := by
        refine ((hperm.map (fun l => l.id)).nodup_iff).mpr ?_
        exact hnodup.sublist ((List.filter_sublist lots).map _)
      obtain ⟨hmap, hsum, hresnn⟩ := consumeLots_master (getLotsForMethod lots m)
        { remainingToSell := tx.amount, lots := lots, totalCostBasis := 0, lotsUsed := [] }
        hosid hosmem hospos hnodup hnn
      have hexh := consumeLots_exhausts (getLotsForMethod lots m)
        { remainingToSell := tx.amount, lots := lots, totalCostBasis := 0, lotsUsed := [] }
        hospos hamt ?hle
      case hle =>
        simp only
        rw [sumBy_perm (fun l => l.remainingAmount) hperm, sumRem_filter_pos hnn]
        have := hsell htx
        rw [hcur] at this
        exact this
      refine ⟨⟨?_, ?_, ?_, ?_⟩, ?_⟩
      · rw [hlots']
        exact Or.inr ⟨_, assocSet_shape key _ hshape⟩
      · rw [hcur']; exact hresnn
      · rw [hcur', hmap]; exact hnodup
      · rw [hcur', hcounter']
        intro l hl
        have : l.id ∈ lots.map (fun l => l.id) := by
          rw [← hmap]
          exact List.mem_map.mpr ⟨l, hl, rfl⟩
        rcases List.mem_map.mp this with ⟨l₀, hl₀, hid⟩
        rcases hbound l₀ hl₀ with ⟨k, hk, hkid⟩
        exact ⟨k, hk, hid ▸ hkid⟩
      · rw [hcur', hcur, hsum, hexh]
        simp [isAcquisition, htx]
  all_goals {
    -- the three acquisition branches: buy, airdrop, transfer
    refine ?_
    have hlots' : (processTx g m σ tx).lotsByAsset =
        assocSet key (curLots key σ ++
          [{ id := g σ.counter, asset := tx.asset.toUpper, amount := tx.amount,
             remainingAmount := tx.amount,
             costPerUnit := if 0 < tx.amount then
               (if tx.valueEur = 0 then 0 else tx.valueEur) / tx.amount else 0,
             totalCost := if tx.valueEur = 0 then 0 else tx.valueEur,
             timestamp := tx.timestamp, txHash := tx.hash }]) σ.lotsByAsset := by
      rw [processTx, htx]
      simp only [hasset]
      rfl
    have hcounter' : (processTx g m σ tx).counter = σ.counter + 1 := by
      rw [processTx, htx]
    have hcur' : curLots key (processTx g m σ tx) = curLots key σ ++
        [{ id := g σ.counter, asset := tx.asset.toUpper, amount := tx.amount,
           remainingAmount := tx.amount,
           costPerUnit := if 0 < tx.amount then
             (if tx.valueEur = 0 then 0 else tx.valueEur) / tx.amount else 0,
           totalCost := if tx.valueEur = 0 then 0 else tx.valueEur,
           timestamp := tx.timestamp, txHash := tx.hash }] := by
      rw [curLots, hlots', assocFind_assocSet_self, Option.getD_some]
    refine ⟨⟨?_, ?_, ?_, ?_⟩, ?_⟩
    · rw [hlots']
      exact Or.inr ⟨_, assocSet_shape key _ hshape⟩
    · rw [hcur']
      intro l hl
      rcases List.mem_append.mp hl with h1 | h1
      · exact hnn l h1
      · rcases List.mem_singleton.mp h1 with rfl
        exact hamt
    · rw [hcur', List.map_append, List.nodup_append]
      refine ⟨hnodup, List.nodup_singleton _, ?_⟩
      intro a ha hb
      rcases List.mem_map.mp ha with ⟨l, hl, rfl⟩
      rcases hbound l hl with ⟨k, hk, hkid⟩
      rcases List.mem_singleton.mp hb with h
      simp only at h
      rw [hkid] at h
      exact absurd (hg h) (Nat.ne_of_lt hk)
    · rw [hcur', hcounter']
      intro l hl
      rcases List.mem_append.mp hl with h1 | h1
      · rcases hbound l h1 with ⟨k, hk, hkid⟩
        exact ⟨k, Nat.lt_succ_of_lt hk, hkid⟩
      · rcases List.mem_singleton.mp h1 with rfl
        exact ⟨σ.counter, Nat.lt_succ_self _, rfl⟩
    · rw [hcur', sumBy_append, sumBy_cons, sumBy_nil]
      simp [isAcquisition, htx] }

theorem foldl_assetInv (g : ℕ → ℕ) (hg : Function.Injective g) (m : CostBasisMethod)
    (key : String) (txs : List Transaction) (σ : CalcState)
    (hassets : ∀ tx ∈ txs, tx.asset.toUpper = key)
    (hamts : ∀ tx ∈ txs, 0 ≤ tx.amount)
    (hcov : noOverSell g m σ txs = true)
    (hinv : assetInv g key σ) :
    assetInv g key (txs.foldl (processTx g m) σ) ∧
    sumBy (fun l => l.remainingAmount) (curLots key (txs.foldl (processTx g m) σ)) =
      sumBy (fun l => l.remainingAmount) (curLots key σ) +
        sumBy (fun tx => tx.amount) (txs.filter (fun tx => isAcquisition tx.type)) -
        sumBy (fun tx => tx.amount) (txs.filter (fun tx => tx.type = .sell)) := by
  induction txs generalizing σ with
  | nil =>
    refine ⟨hinv, ?_⟩
    show sumBy (fun l => l.remainingAmount) (curLots key σ) =
      sumBy (fun l => l.remainingAmount) (curLots key σ) +
        sumBy (fun tx => tx.amount) ([] : List Transaction) -
        sumBy (fun tx => tx.amount) ([] : List Transaction)
    simp only [sumBy_nil]
    ring
  | cons tx rest ih =>
    rw [noOverSell, Bool.and_eq_true] at hcov
    obtain ⟨h1, h2⟩ := hcov
    have hsell : tx.type = .sell →
        tx.amount ≤ sumBy (fun l => l.remainingAmount) (curLots key σ) := by
      intro hty
      rw [if_pos hty, hassets tx (List.mem_cons_self _ _)] at h1
      exact of_decide_eq_true h1
    obtain ⟨hinv', hsum'⟩ := processTx_assetInv g hg m key σ tx
      (hassets tx (List.mem_cons_self _ _)) (hamts tx (List.mem_cons_self _ _)) hinv hsell
    obtain ⟨ihinv, ihsum⟩ := ih (processTx g m σ tx)
      (fun t ht => hassets t (List.mem_cons_of_mem _ ht))
      (fun t ht => hamts t (List.mem_cons_of_mem _ ht)) h2 hinv'
    refine ⟨ihinv, ?_⟩
    rw [List.foldl_cons] at *
    rw [ihsum, hsum', List.filter_cons, List.filter_cons]
    cases hty : tx.type <;>
      simp [hty, isAcquisition, sumBy_cons] <;>
      ring

theorem sumBy_amount_filter_normSort (txs : List Transaction) (p : TxType → Bool) :
    sumBy (fun t => t.amount)
      (((txs.map normalizeTx).insertionSort txLe).filter (fun t => p t.type)) =
    sumBy (fun t => t.amount) (txs.filter (fun t => p t.type)) := by
  rw [sumBy_perm _ ((List.perm_insertionSort txLe _).filter _)]
  induction txs with
  | nil => rfl
  | cons t rest ih =>
    rw [List.map_cons, List.filter_cons, List.filter_cons]
    have htype : (normalizeTx t).type = t.type := rfl
    have hamount : (normalizeTx t).amount = t.amount := rfl
    rw [htype]
    by_cases hp : p t.type = true
    · rw [if_pos hp, if_pos hp, sumBy_cons, sumBy_cons, ih, hamount]
    · rw [if_neg hp, if_neg hp, ih]

theorem initState_assetInv (g : ℕ → ℕ) (key : String) : assetInv g key initState := by
  refine ⟨Or.inl rfl, ?_, ?_, ?_⟩
  · intro l hl
    simp [curLots, assocFind, initState] at hl
  · simp [curLots, assocFind, initState]
  · intro l hl
    simp [curLots, assocFind, initState] at hl

/-- C2.  For a single-asset history with non-negative amounts in which no sale
exceeds the total remaining lot amount at the time it is processed, the sum of
`remainingAmount` over the resulting lots equals total acquired minus total
disposed, and the `remainingAmount` of every lot is non-negative.  The lot-id
supply is injective, modelling the uniqueness of the generated lot ids. -/
theorem c2_lot_conservation (g : ℕ → ℕ) (txs : List Transaction) (a : String)
    (m : CostBasisMethod)
    (hg : Function.Injective g)
    (hasset : ∀ tx ∈ txs, tx.asset = a)
    (hamt : ∀ tx ∈ txs, 0 ≤ tx.amount)
    (hcov : noOverSell g m initState ((txs.map normalizeTx).insertionSort txLe) = true) :
    sumBy (fun l => l.remainingAmount) (calculateCostBasis g txs m).lots =
      sumBy (fun tx => tx.amount) (txs.filter (fun tx => isAcquisition tx.type)) -
        sumBy (fun tx => tx.amount) (txs.filter (fun tx => tx.type = .sell)) ∧
    ∀ l ∈ (calculateCostBasis g txs m).lots, 0 ≤ l.remainingAmount := by
  have hassets' : ∀ tx ∈ (txs.map normalizeTx).insertionSort txLe,
      tx.asset.toUpper = a.toUpper := by
    intro tx htx
    rcases List.mem_map.mp ((List.mem_insertionSort txLe).mp htx) with ⟨t₀, ht₀, rfl⟩
    have : (normalizeTx t₀).asset = t₀.asset := rfl
    rw [this, hasset t₀ ht₀]
  have hamts' : ∀ tx ∈ (txs.map normalizeTx).insertionSort txLe, 0 ≤ tx.amount := by
    intro tx htx
    rcases List.mem_map.mp ((List.mem_insertionSort txLe).mp htx) with ⟨t₀, ht₀, rfl⟩
    exact hamt t₀ ht₀
  obtain ⟨⟨hshape, hnn, _, _⟩, hsum⟩ := foldl_assetInv g hg m a.toUpper
    ((txs.map normalizeTx).insertionSort txLe) initState hassets' hamts' hcov
    (initState_assetInv g a.toUpper)
  have hcur0 : curLots a.toUpper initState = [] := rfl
  have hlots : (calculateCostBasis g txs m).lots =
      ((((txs.map normalizeTx).insertionSort txLe).foldl (processTx g m)
        initState).lotsByAsset.map Prod.snd).flatten := rfl
  have hAs := sumBy_amount_filter_normSort txs isAcquisition
  have hSs := sumBy_amount_filter_normSort txs (fun ty => decide (ty = .sell))
  rcases hshape with hsh | ⟨lots, hsh⟩
  · have hcurf0 : curLots a.toUpper
        (((txs.map normalizeTx).insertionSort txLe).foldl (processTx g m) initState) = [] := by
      rw [curLots, hsh]; rfl
    rw [hcurf0, hcur0] at hsum
    simp only [sumBy_nil] at hsum
    rw [hlots, hsh]
    constructor
    · simp only [List.map_nil, List.flatten_nil, sumBy_nil]
      rw [← hAs, ← hSs]
      linarith
    · intro l hl
      simp at hl
  · have hcurf : curLots a.toUpper
        (((txs.map normalizeTx).insertionSort txLe).foldl (processTx g m) initState) =
        lots := by
      rw [curLots, hsh, assocFind, if_pos rfl, Option.getD_some]
    rw [hcurf, hcur0, sumBy_nil] at hsum
    rw [hcurf] at hnn
    have hflat : (calculateCostBasis g txs m).lots = lots := by
      rw [hlots, hsh]
      simp
    rw [hflat]
    constructor
    · rw [hsum, ← hAs, ← hSs]
      ring
    · exact hnn

/-- Concrete history for the C2 witness: buy 2 BTC, then sell 1 BTC. -/
def c2ExampleTxs : List Transaction :=
  [ { id := "a", walletId := "w", hash := "a", type := .buy, asset := "btc",
      amount := 2, valueEur := 100, timestamp := 1 },
    { id := "b", walletId := "w", hash := "b", type := .sell, asset := "btc",
      amount := 1, valueEur := 60, timestamp := 2 } ]

/-- Witness for C2: all hypotheses hold on a concrete two-transaction history
and the conservation equation follows by the theorem. -/
theorem c2_lot_conservation_witness :
    Function.Injective idSupply0 ∧
    (∀ tx ∈ c2ExampleTxs, tx.asset = "btc") ∧
    (∀ tx ∈ c2ExampleTxs, 0 ≤ tx.amount) ∧
    noOverSell idSupply0 .FIFO initState
      ((c2ExampleTxs.map normalizeTx).insertionSort txLe) = true ∧
    (sumBy (fun l => l.remainingAmount) (calculateCostBasis idSupply0 c2ExampleTxs .FIFO).lots =
      sumBy (fun tx => tx.amount) (c2ExampleTxs.filter (fun tx => isAcquisition tx.type)) -
        sumBy (fun tx => tx.amount) (c2ExampleTxs.filter (fun tx => tx.type = .sell)) ∧
     ∀ l ∈ (calculateCostBasis idSupply0 c2ExampleTxs .FIFO).lots, 0 ≤ l.remainingAmount) :=
  ⟨fun _ _ h => h, by with_unfolding_all decide, by with_unfolding_all decide,
   by with_unfolding_all decide,
   c2_lot_conservation idSupply0 c2ExampleTxs "btc" .FIFO (fun _ _ h => h)
     (by with_unfolding_all decide) (by with_unfolding_all decide)
     (by with_unfolding_all decide)⟩

/-! ### C4: determinism up to the generated lot identifiers

The source builds lot ids from `Date.now()` and `Math.random()`; the id supply
`g` captures that hidden state.  Renaming the ids of an identity-supply run
through any injective supply reproduces the run with that supply. -/

/-- Rename the id of a lot through the supply `g`. -/
def renameLot (g : ℕ → ℕ) (l : CostBasisLot) : CostBasisLot := { l with id := g l.id }

/-- Rename the id of a lot-use record through the supply `g`. -/
def renameUse (g : ℕ → ℕ) (u : LotUse) : LotUse := { u with lotId := g u.lotId }

/-- Rename all lot ids in a sale result. -/
def renameSale (g : ℕ → ℕ) (s : SaleResult) : SaleResult :=
  { s with lotsUsed := s.lotsUsed.map (renameUse g) }

/-- Rename all lot ids in a consumption-loop state. -/
def renameConsume (g : ℕ → ℕ) (s : ConsumeState) : ConsumeState :=
  { s with lots := s.lots.map (renameLot g), lotsUsed := s.lotsUsed.map (renameUse g) }

/-- Rename all lot ids in a run state. -/
def renameState (g : ℕ → ℕ) (σ : CalcState) : CalcState :=
  { σ with
      lotsByAsset := σ.lotsByAsset.map (fun p => (p.1, p.2.map (renameLot g)))
      sales := σ.sales.map (renameSale g) }

/-- Rename all lot ids in a full result. -/
def renameResult (g : ℕ → ℕ) (r : CostBasisResult) : CostBasisResult :=
  { r with lots := r.lots.map (renameLot g), sales := r.sales.map (renameSale g) }

theorem decrementFirst_map_rename (g : ℕ → ℕ) (hg : Function.Injective g)
    (i : ℕ) (amt : ℚ) (lots : List CostBasisLot) :
    decrementFirst (g i) amt (lots.map (renameLot g)) =
      (decrementFirst i amt lots).map (renameLot g) := by
  induction lots with
  | nil => rfl
  | cons l rest ih =>
    rw [List.map_cons, decrementFirst, decrementFirst]
    by_cases h : l.id = i
    · rw [if_pos h, if_pos (show (renameLot g l).id = g i from congrArg g h), List.map_cons]
      rfl
    · rw [if_neg h, if_neg (show ¬(renameLot g l).id = g i from fun hc => h (hg hc)),
        List.map_cons, ih]

theorem filter_pos_map_rename (g : ℕ → ℕ) (lots : List CostBasisLot) :
    (lots.map (renameLot g)).filter (fun l => 0 < l.remainingAmount) =
      (lots.filter (fun l => 0 < l.remainingAmount)).map (renameLot g) := by
  induction lots with
  | nil => rfl
  | cons l rest ih =>
    rw [List.map_cons, List.filter_cons, List.filter_cons]
    by_cases h : (0 : ℚ) < l.remainingAmount
    · rw [if_pos (by exact decide_eq_true h), if_pos (by exact decide_eq_true h),
        List.map_cons, ih]
    · rw [if_neg (by simpa using h), if_neg (by simpa using h), ih]

theorem getLotsForMethod_map_rename (g : ℕ → ℕ) (lots : List CostBasisLot)
    (m : CostBasisMethod) :
    getLotsForMethod (lots.map (renameLot g)) m =
      (getLotsForMethod lots m).map (renameLot g) := by
  cases m
  · simp only [getLotsForMethod]
    rw [filter_pos_map_rename]
    exact (List.map_insertionSort fifoLe fifoLe (renameLot g) _ (fun a _ b _ => Iff.rfl)).symm
  · simp only [getLotsForMethod]
    rw [filter_pos_map_rename]
    exact (List.map_insertionSort lifoLe lifoLe (renameLot g) _ (fun a _ b _ => Iff.rfl)).symm
  · simp only [getLotsForMethod]
    rw [filter_pos_map_rename]
    exact (List.map_insertionSort hifoLe hifoLe (renameLot g) _ (fun a _ b _ => Iff.rfl)).symm

theorem consumeLots_map_rename (g : ℕ → ℕ) (hg : Function.Injective g)
    (os : List CostBasisLot) (s : ConsumeState) :
    consumeLots (os.map (renameLot g)) (renameConsume g s) =
      renameConsume g (consumeLots os s) := by
  induction os generalizing s with
  | nil => rfl
  | cons lot rest ih =>
    rw [List.map_cons, consumeLots, consumeLots]
    by_cases hbr : s.remainingToSell ≤ 0
    · rw [if_pos hbr, if_pos (show (renameConsume g s).remainingToSell ≤ 0 from hbr)]
    · rw [if_neg hbr, if_neg (show ¬(renameConsume g s).remainingToSell ≤ 0 from hbr)]
      by_cases hskip : lot.remainingAmount ≤ 0
      · rw [if_pos hskip, if_pos (show (renameLot g lot).remainingAmount ≤ 0 from hskip), ih]
      · rw [if_neg hskip, if_neg (show ¬(renameLot g lot).remainingAmount ≤ 0 from hskip)]
        rw [← ih
          { remainingToSell := s.remainingToSell - jsMin lot.remainingAmount s.remainingToSell
            lots := decrementFirst lot.id (jsMin lot.remainingAmount s.remainingToSell) s.lots
            totalCostBasis := s.totalCostBasis +
              jsMin lot.remainingAmount s.remainingToSell * lot.costPerUnit
            lotsUsed := s.lotsUsed ++
              [{ lotId := lot.id,
                 amountUsed := jsMin lot.remainingAmount s.remainingToSell,
                 costPerUnit := lot.costPerUnit,
                 cost := jsMin lot.remainingAmount s.remainingToSell * lot.costPerUnit }] }]
        show consumeLots (List.map (renameLot g) rest)
            { remainingToSell := s.remainingToSell - jsMin lot.remainingAmount s.remainingToSell
              lots := decrementFirst (g lot.id) (jsMin lot.remainingAmount s.remainingToSell)
                (s.lots.map (renameLot g))
              totalCostBasis := s.totalCostBasis +
                jsMin lot.remainingAmount s.remainingToSell * lot.costPerUnit
              lotsUsed := s.lotsUsed.map (renameUse g) ++
                [{ lotId := g lot.id,
                   amountUsed := jsMin lot.remainingAmount s.remainingToSell,
                   costPerUnit := lot.costPerUnit,
                   cost := jsMin lot.remainingAmount s.remainingToSell * lot.costPerUnit }] } =
          consumeLots (List.map (renameLot g) rest)
            (renameConsume g
              { remainingToSell := s.remainingToSell - jsMin lot.remainingAmount s.remainingToSell
                lots := decrementFirst lot.id (jsMin lot.remainingAmount s.remainingToSell) s.lots
                totalCostBasis := s.totalCostBasis +
                  jsMin lot.remainingAmount s.remainingToSell * lot.costPerUnit
                lotsUsed := s.lotsUsed ++
                  [{ lotId := lot.id,
                     amountUsed := jsMin lot.remainingAmount s.remainingToSell,
                     costPerUnit := lot.costPerUnit,
                     cost := jsMin lot.remainingAmount s.remainingToSell * lot.costPerUnit }] })
        congr 1
        rw [decrementFirst_map_rename g hg]
        simp only [renameConsume, renameUse, List.map_append, List.map_cons, List.map_nil]

theorem assocFind_map {β γ : Type} (f : β → γ) (k : String) (l : List (String × β)) :
    assocFind k (l.map (fun p => (p.1, f p.2))) = (assocFind k l).map f := by
  induction l with
  | nil => rfl
  | cons p rest ih =>
    rw [List.map_cons, assocFind, assocFind]
    by_cases h : p.1 = k
    · rw [if_pos h, if_pos h]
      rfl
    · rw [if_neg h, if_neg h, ih]

theorem assocSet_map {β γ : Type} (f : β → γ) (k : String) (v : β) (l : List (String × β)) :
    assocSet k (f v) (l.map (fun p => (p.1, f p.2))) =
      (assocSet k v l).map (fun p => (p.1, f p.2)) := by
  induction l with
  | nil => rfl
  | cons p rest ih =>
    rw [List.map_cons, assocSet, assocSet]
    by_cases h : p.1 = k
    · rw [if_pos h, if_pos h, List.map_cons]
    · rw [if_neg h, if_neg h, List.map_cons, ih]

theorem getD_nil_map {β γ : Type} (f : List β → List γ) (o : Option (List β))
    (hf : f [] = []) : (o.map f).getD [] = f (o.getD []) := by
  cases o
  · simp [hf]
  · rfl

theorem consumeLots_nil (s : ConsumeState) : consumeLots [] s = s := rfl

theorem renameConsume_totalCostBasis (g : ℕ → ℕ) (s : ConsumeState) :
    (renameConsume g s).totalCostBasis = s.totalCostBasis := rfl

theorem renameConsume_lots (g : ℕ → ℕ) (s : ConsumeState) :
    (renameConsume g s).lots = s.lots.map (renameLot g) := rfl

theorem renameConsume_lotsUsed (g : ℕ → ℕ) (s : ConsumeState) :
    (renameConsume g s).lotsUsed = s.lotsUsed.map (renameUse g) := rfl

theorem consumeLots_init_map_rename (g : ℕ → ℕ) (hg : Function.Injective g)
    (os cur : List CostBasisLot) (amt : ℚ) :
    consumeLots (os.map (renameLot g))
      { remainingToSell := amt, lots := cur.map (renameLot g),
        totalCostBasis := 0, lotsUsed := [] } =
    renameConsume g (consumeLots os
      { remainingToSell := amt, lots := cur, totalCostBasis := 0, lotsUsed := [] }) := by
  have hinit : ({ remainingToSell := amt
                  lots := cur.map (renameLot g)
                  totalCostBasis := 0
                  lotsUsed := [] } : ConsumeState) =
      renameConsume g
        { remainingToSell := amt
          lots := cur
          totalCostBasis := 0
          lotsUsed := [] } := rfl
  rw [hinit, consumeLots_map_rename g hg]

theorem processTx_map_rename (g : ℕ → ℕ) (hg : Function.Injective g) (m : CostBasisMethod)
    (σ : CalcState) (tx : Transaction) :
    processTx g m (renameState g σ) tx = renameState g (processTx idSupply0 m σ tx) := by
  have hgetD : ((Option.map (List.map (renameLot g))
      (assocFind tx.asset.toUpper σ.lotsByAsset)).getD []) =
      ((assocFind tx.asset.toUpper σ.lotsByAsset).getD []).map (renameLot g) := by
    cases assocFind tx.asset.toUpper σ.lotsByAsset <;> rfl
  cases htx : tx.type
  case stake =>
    rw [processTx, processTx, htx]
  case sell =>
    rw [processTx, processTx, htx]
    simp only [renameState, assocFind_map]
    cases hfind : assocFind tx.asset.toUpper σ.lotsByAsset with
    | none =>
      have h0 : getLotsForMethod ([] : List CostBasisLot) m = [] := by cases m <;> rfl
      simp only [Option.map_none', Option.getD_none, h0, consumeLots_nil,
        List.map_append]
      rfl
    | some lots =>
      simp only [Option.map_some', Option.getD_some]
      rw [getLotsForMethod_map_rename g lots m, consumeLots_init_map_rename g hg _ lots]
      simp only [renameConsume_totalCostBasis, renameConsume_lotsUsed, renameConsume_lots,
        assocSet_map (List.map (renameLot g)), List.map_append]
      rfl
  all_goals
    rw [processTx, processTx, htx]
    simp only [renameState, assocFind_map]
    rw [hgetD]
    have hnew : ([{ id := g σ.counter
                    asset := tx.asset.toUpper
                    amount := tx.amount
                    remainingAmount := tx.amount
                    costPerUnit := if 0 < tx.amount then
                      (if tx.valueEur = 0 then 0 else tx.valueEur) / tx.amount else 0
                    totalCost := if tx.valueEur = 0 then 0 else tx.valueEur
                    timestamp := tx.timestamp
                    txHash := tx.hash }] : List CostBasisLot) =
        List.map (renameLot g)
          [{ id := idSupply0 σ.counter
             asset := tx.asset.toUpper
             amount := tx.amount
             remainingAmount := tx.amount
             costPerUnit := if 0 < tx.amount then
               (if tx.valueEur = 0 then 0 else tx.valueEur) / tx.amount else 0
             totalCost := if tx.valueEur = 0 then 0 else tx.valueEur
             timestamp := tx.timestamp
             txHash := tx.hash }] := rfl
    rw [hnew, ← List.map_append, assocSet_map (List.map (renameLot g))]


theorem foldl_map_rename (g : ℕ → ℕ) (hg : Function.Injective g) (m : CostBasisMethod)
    (txs : List Transaction) (σ : CalcState) :
    txs.foldl (processTx g m) (renameState g σ) =
      renameState g (txs.foldl (processTx idSupply0 m) σ) := by
  induction txs generalizing σ with
  | nil => rfl
  | cons tx rest ih =>
    rw [List.foldl_cons, List.foldl_cons, processTx_map_rename g hg, ih]

theorem sumBy_map {β γ : Type} (f : γ → ℚ) (h : β → γ) (l : List β) :
    sumBy f (l.map h) = sumBy (fun x => f (h x)) l := by
  induction l with
  | nil => rfl
  | cons x xs ih => rw [List.map_cons, sumBy_cons, sumBy_cons, ih]

theorem flatten_map_snd_rename (g : ℕ → ℕ) (L : List (String × List CostBasisLot)) :
    ((L.map (fun p => (p.1, p.2.map (renameLot g)))).map Prod.snd).flatten =
      ((L.map Prod.snd).flatten).map (renameLot g) := by
  induction L with
  | nil => rfl
  | cons p rest ih =>
    simp only [List.map_cons, List.flatten_cons, List.map_append, ih]

theorem unrealizedEntryFor_rename (g : ℕ → ℕ) (p : String × List CostBasisLot) :
    unrealizedEntryFor (p.1, p.2.map (renameLot g)) = unrealizedEntryFor p := by
  rw [unrealizedEntryFor, unrealizedEntryFor]
  dsimp only
  rw [filter_pos_map_rename]
  simp only [sumBy_map]
  rfl

theorem computeUnrealized_rename (g : ℕ → ℕ) (L : List (String × List CostBasisLot)) :
    computeUnrealized (L.map (fun p => (p.1, p.2.map (renameLot g)))) =
      computeUnrealized L := by
  induction L with
  | nil => rfl
  | cons p rest ih =>
    rw [computeUnrealized, computeUnrealized] at *
    rw [List.map_cons, List.filterMap_cons, List.filterMap_cons,
      unrealizedEntryFor_rename g p, ih]

/-- Renaming the identity-supply run through any injective supply reproduces the
run with that supply: all hidden-state dependence of `calculateCostBasis` is
confined to the generated lot identifiers. -/
theorem calculateCostBasis_rename (g : ℕ → ℕ) (hg : Function.Injective g)
    (txs : List Transaction) (m : CostBasisMethod) :
    calculateCostBasis g txs m = renameResult g (calculateCostBasis idSupply0 txs m) := by
  have hfold := foldl_map_rename g hg m ((txs.map normalizeTx).insertionSort txLe) initState
  rw [show renameState g initState = initState from rfl] at hfold
  rw [calculateCostBasis, calculateCostBasis, hfold]
  rw [renameResult, renameState]
  dsimp only
  rw [flatten_map_snd_rename, computeUnrealized_rename]

/-- Zero out the id of a lot-use record. -/
def eraseUse (u : LotUse) : LotUse := { u with lotId := 0 }

/-- Zero out the id of a lot. -/
def eraseLot (l : CostBasisLot) : CostBasisLot := { l with id := 0 }

/-- Zero out the lot ids referenced by a sale. -/
def eraseSale (s : SaleResult) : SaleResult := { s with lotsUsed := s.lotsUsed.map eraseUse }

/-- A `calculateCostBasis` result with every generated lot identifier zeroed
out; all other data (amounts, costs, gains, order) is untouched. -/
def eraseResult (r : CostBasisResult) : CostBasisResult :=
  { r with lots := r.lots.map eraseLot, sales := r.sales.map eraseSale }

theorem eraseSale_renameSale (g : ℕ → ℕ) (s : SaleResult) :
    eraseSale (renameSale g s) = eraseSale s := by
  rw [eraseSale, eraseSale, renameSale]
  dsimp only
  rw [List.map_map]
  exact congrArg _ (List.map_congr_left (fun u _ => rfl))

theorem eraseResult_renameResult (g : ℕ → ℕ) (r : CostBasisResult) :
    eraseResult (renameResult g r) = eraseResult r := by
  rw [eraseResult, eraseResult, renameResult]
  dsimp only
  rw [List.map_map, List.map_map]
  refine congrArg₂ (fun a b => CostBasisResult.mk a b r.totalGains r.totalLosses
    r.netGain r.unrealizedGains) ?_ ?_
  · exact List.map_congr_left (fun l _ => rfl)
  · exact List.map_congr_left (fun s _ => eraseSale_renameSale g s)

/-- A single buy, used to exhibit the dependence of the returned lot ids on the
clock/random id generator. -/
def c4ExampleTxs : List Transaction :=
  [ { id := "a", walletId := "w", hash := "a", type := .buy, asset := "btc",
      amount := 1, valueEur := 10, timestamp := 1 } ]

/-- Counterexample to C4 as stated: two invocations of `calculateCostBasis` on
the same transactions and method, differing only in the clock/random draw
behind the lot-id generator (modelled by the id supply), return different
outputs — the generated lot ids differ. -/
theorem c4_purity_counterexample :
    calculateCostBasis idSupply0 c4ExampleTxs .FIFO ≠
      calculateCostBasis idSupply1 c4ExampleTxs .FIFO := by
  with_unfolding_all decide

/-- C4 (amended).  `calculateCostBasis` is deterministic up to the generated
lot identifiers: for any two injective draws of the id supply, erasing the lot
ids from the two results yields identical values — every other output
(amounts, cost bases, gains, sales, unrealized gains) is a pure function of
the transactions and the method. -/
theorem c4_pure_up_to_lot_ids (g₁ g₂ : ℕ → ℕ) (h₁ : Function.Injective g₁)
    (h₂ : Function.Injective g₂) (txs : List Transaction) (m : CostBasisMethod) :
    eraseResult (calculateCostBasis g₁ txs m) =
      eraseResult (calculateCostBasis g₂ txs m) := by
  rw [calculateCostBasis_rename g₁ h₁ txs m, calculateCostBasis_rename g₂ h₂ txs m,
    eraseResult_renameResult, eraseResult_renameResult]

/-- Witness for the amended C4: both concrete supplies are injective and the
erased results of the two runs coincide on a concrete history. -/
theorem c4_pure_up_to_lot_ids_witness :
    Function.Injective idSupply0 ∧ Function.Injective idSupply1 ∧
    eraseResult (calculateCostBasis idSupply0 c4ExampleTxs .FIFO) =
      eraseResult (calculateCostBasis idSupply1 c4ExampleTxs .FIFO) :=
  ⟨fun _ _ h => h, fun _ _ h => Nat.add_right_cancel h,
   c4_pure_up_to_lot_ids idSupply0 idSupply1 (fun _ _ h => h)
     (fun _ _ h => Nat.add_right_cancel h) c4ExampleTxs .FIFO⟩

/-! ### C6: the unrealized-gain sanity clamps -/

theorem assocFind_assocSet_ne {β : Type} {k k' : String} (hne : k' ≠ k) (v : β)
    (l : List (String × β)) : assocFind k (assocSet k' v l) = assocFind k l := by
  induction l with
  | nil => simp [assocSet, assocFind, hne]
  | cons p rest ih =>
    rw [assocSet]
    by_cases h : p.1 = k'
    · rw [if_pos h, assocFind, assocFind, if_neg (h ▸ hne), if_neg (h ▸ hne)]
    · rw [if_neg h, assocFind, assocFind]
      by_cases h2 : p.1 = k
      · rw [if_pos h2, if_pos h2]
      · rw [if_neg h2, if_neg h2, ih]

theorem ug_foldl_lookup_of_not_mem (prices : List (String × ℚ))
    (entries : List (String × UnrealizedEntry)) (a : String) (σ : UGResult)
    (hnm : a ∉ entries.map Prod.fst) :
    assocFind a ((entries.foldl (ugStep prices) σ).byAsset) = assocFind a σ.byAsset := by
  induction entries generalizing σ with
  | nil => rfl
  | cons e rest ih =>
    rw [List.map_cons] at hnm
    rw [List.foldl_cons, ih _ (fun h => hnm (List.mem_cons_of_mem _ h))]
    rw [ugStep]
    exact assocFind_assocSet_ne
      (fun h => hnm (by rw [h]; exact List.mem_cons_self _ _)) _ _

theorem ug_foldl_lookup (prices : List (String × ℚ))
    (entries : List (String × UnrealizedEntry)) (a : String) (d : UnrealizedEntry)
    (σ : UGResult) (hnodup : (entries.map Prod.fst).Nodup) (hmem : (a, d) ∈ entries) :
    assocFind a ((entries.foldl (ugStep prices) σ).byAsset) =
      some (ugEntryValue prices a d) := by
  induction entries generalizing σ with
  | nil => cases hmem
  | cons e rest ih =>
    rw [List.map_cons, List.nodup_cons] at hnodup
    rcases List.mem_cons.mp hmem with rfl | hmem'
    · rw [List.foldl_cons,
        ug_foldl_lookup_of_not_mem prices rest a _ hnodup.1]
      rw [ugStep]
      exact assocFind_assocSet_self _ _ _
    · have hne : a ≠ e.1 := by
        intro h
        exact hnodup.1 (h ▸ List.mem_map.mpr ⟨(a, d), hmem', rfl⟩)
      rw [List.foldl_cons, ih _ hnodup.2 hmem']

/-- C6.  For every entry `(a, d)` fed to `calculateUnrealizedGains`, the
reported `unrealizedGainLoss` for `a` is `0` when `d.costBasis` is below
`0.01`; otherwise it is capped at half of `currentValue` when
`currentValue - costBasis` would exceed `currentValue`, and otherwise equals
`currentValue - costBasis` (with `currentValue = amount * looked-up price`). -/
theorem c6_unrealized_gain_clamps (entries : List (String × UnrealizedEntry))
    (prices : List (String × ℚ)) (a : String) (d : UnrealizedEntry)
    (hnodup : (entries.map Prod.fst).Nodup) (hmem : (a, d) ∈ entries) :
    assocFind a (calculateUnrealizedGains entries prices).byAsset =
      some { amount := d.amount
             costBasis := d.costBasis
             currentValue := d.amount * jsPriceLookup prices a
             unrealizedGainLoss :=
               if d.costBasis < 1 / 100 then 0
               else if d.amount * jsPriceLookup prices a <
                   d.amount * jsPriceLookup prices a - d.costBasis then
                 d.amount * jsPriceLookup prices a * (1 / 2)
               else d.amount * jsPriceLookup prices a - d.costBasis } := by
  rw [calculateUnrealizedGains, ug_foldl_lookup prices entries a d _ hnodup hmem]
  rw [ugEntryValue]
  congr 1
  by_cases h0 : d.costBasis < 1 / 100
  · rw [if_pos (Or.inr h0), if_pos h0]
  · rw [if_neg h0, if_neg ?hcode]
    case hcode =>
      rintro (hz | hlt)
      · exact h0 (by rw [hz]; norm_num)
      · exact h0 hlt

/-- Concrete entries for the C6 witness. -/
def c6ExampleEntries : List (String × UnrealizedEntry) :=
  [("BTC", { amount := 2, costBasis := 1, avgCost := 1 / 2 })]

/-- Concrete prices for the C6 witness. -/
def c6ExamplePrices : List (String × ℚ) := [("BTC", 10)]

/-- Witness for C6: the hypotheses hold on a concrete entry/price table, and
the reported entry matches the clamped formula. -/
theorem c6_unrealized_gain_clamps_witness :
    (c6ExampleEntries.map Prod.fst).Nodup ∧
    ("BTC", ({ amount := 2, costBasis := 1, avgCost := 1 / 2 } : UnrealizedEntry)) ∈
      c6ExampleEntries ∧
    assocFind "BTC" (calculateUnrealizedGains c6ExampleEntries c6ExamplePrices).byAsset =
      some { amount := 2
             costBasis := 1
             currentValue := 2 * jsPriceLookup c6ExamplePrices "BTC"
             unrealizedGainLoss :=
               if (1 : ℚ) < 1 / 100 then 0
               else if 2 * jsPriceLookup c6ExamplePrices "BTC" <
                   2 * jsPriceLookup c6ExamplePrices "BTC" - 1 then
                 2 * jsPriceLookup c6ExamplePrices "BTC" * (1 / 2)
               else 2 * jsPriceLookup c6ExamplePrices "BTC" - 1 } :=
  ⟨by with_unfolding_all decide, by with_unfolding_all decide,
   c6_unrealized_gain_clamps c6ExampleEntries c6ExamplePrices "BTC"
     { amount := 2, costBasis := 1, avgCost := 1 / 2 }
     (by with_unfolding_all decide) (by with_unfolding_all decide)⟩

/-! ### Cryptographic vault (the WebCrypto module)

AES-GCM and PBKDF2 are platform primitives and are modelled symbolically as an
ideal AEAD: a ciphertext is determined by (key, iv, plaintext); decryption
recovers the plaintext exactly when the key and iv match, and otherwise fails
(the authentication-tag mismatch; the 2^-128 forgery probability of real
AES-GCM is idealized away).  PBKDF2-SHA256 is modelled as an injective
derivation from (passphrase, salt, iterations); JSON
serialization of the plaintext is treated as the identity. -/

/-- `VaultMetaV1` (version tag fixed to 1, KDF fixed to PBKDF2-SHA256,
cipher fixed to AES-GCM). -/
structure VaultMetaV1 where
  salt : String
  iterations : ℕ
  deriving DecidableEq, Repr

/-- A derived AES key, modelled symbolically by its PBKDF2 inputs. -/
structure DerivedKey where
  passphrase : String
  salt : String
  iterations : ℕ
  deriving DecidableEq, Repr

/-- `deriveAesKey`: PBKDF2 of the passphrase with the salt and iterations of the meta. -/
def deriveAesKey (passphrase : String) (meta : VaultMetaV1) : DerivedKey :=
  { passphrase := passphrase, salt := meta.salt, iterations := meta.iterations }

/-- `UnlockedVault`: the meta plus the in-memory derived key. -/
structure UnlockedVault where
  meta : VaultMetaV1
  key : DerivedKey
  deriving DecidableEq, Repr

/-- The result of a successful `unlockVault(passphrase)` against `meta`. -/
def mkUnlockedVault (passphrase : String) (meta : VaultMetaV1) : UnlockedVault :=
  { meta := meta, key := deriveAesKey passphrase meta }

/-- An ideal AES-GCM ciphertext (symbolic). -/
structure AesGcmCiphertext (α : Type) where
  key : DerivedKey
  iv : ℕ
  plaintext : α
  deriving DecidableEq, Repr

/-- `EncryptedPayloadV1` (`v` fixed to 1; `iv` and `ct` as in the source). -/
structure EncryptedPayloadV1 (α : Type) where
  iv : ℕ
  ct : AesGcmCiphertext α
  deriving DecidableEq, Repr

/-- Vault-level failures (the error taxonomy of the spec: AEAD tag mismatch is
`TamperedDataError`; an operation without an unlocked vault is
`VaultLockedError`). -/
inductive VaultError
  | tamperedData | vaultLocked
  deriving DecidableEq, Repr

/-- `crypto.subtle.decrypt` for ideal AES-GCM: succeeds exactly when the key
and iv match the ones used at encryption; otherwise the tag check fails. -/
def subtleDecrypt {α : Type} (key : DerivedKey) (iv : ℕ) (ct : AesGcmCiphertext α) :
    Except VaultError α :=
  if ct.key = key ∧ ct.iv = iv then Except.ok ct.plaintext
  else Except.error VaultError.tamperedData

/-- `encryptWithKey(data, vault)`: encrypt under the in-memory key of the vault with
a fresh iv (the random draw is the explicit `iv` argument). -/
def encryptWithKey {α : Type} (data : α) (vault : UnlockedVault) (iv : ℕ) :
    EncryptedPayloadV1 α :=
  { iv := iv, ct := { key := vault.key, iv := iv, plaintext := data } }

/-- `decryptWithKey(payload, vault)`: decrypt `payload.ct` with the key of the vault
and `payload.iv`; a failure of `crypto.subtle.decrypt` propagates uncaught. -/
def decryptWithKey {α : Type} (payload : EncryptedPayloadV1 α) (vault : UnlockedVault) :
    Except VaultError α :=
  subtleDecrypt vault.key payload.iv payload.ct

/-- C3.  Decrypting an `encryptWithKey` payload with the same vault returns the
original payload, and decrypting it with a key derived from a different
passphrase or salt fails with the tampered-data error instead of returning
a value. -/
theorem c3_encrypt_decrypt_roundtrip_and_wrong_key_fails :
    (∀ (α : Type) (p : α) (v : UnlockedVault) (iv : ℕ),
      decryptWithKey (encryptWithKey p v iv) v = Except.ok p) ∧
    (∀ (α : Type) (p : α) (iv : ℕ) (pass₁ pass₂ : String) (meta₁ meta₂ : VaultMetaV1),
      pass₁ ≠ pass₂ ∨ meta₁.salt ≠ meta₂.salt →
      decryptWithKey (encryptWithKey p (mkUnlockedVault pass₁ meta₁) iv)
        (mkUnlockedVault pass₂ meta₂) = Except.error VaultError.tamperedData) := by
  constructor
  · intro α p v iv
    rw [decryptWithKey, encryptWithKey, subtleDecrypt]
    rw [if_pos ⟨rfl, rfl⟩]
  · intro α p iv pass₁ pass₂ meta₁ meta₂ h
    rw [decryptWithKey, encryptWithKey, subtleDecrypt, if_neg]
    rintro ⟨hkey, -⟩
    rcases h with h | h
    · exact h (congrArg DerivedKey.passphrase hkey)
    · exact h (congrArg DerivedKey.salt hkey)

/-- Witness for C3: a concrete payload under a concrete vault round-trips, and
a vault unlocked with a different passphrase fails to decrypt it. -/
theorem c3_encrypt_decrypt_roundtrip_and_wrong_key_fails_witness :
    decryptWithKey (encryptWithKey (42 : ℕ) (mkUnlockedVault "hunter22" ⟨"salt1", 210000⟩) 7)
      (mkUnlockedVault "hunter22" ⟨"salt1", 210000⟩) = Except.ok 42 ∧
    ("hunter22" ≠ "hunter23" ∨ ("salt1" : String) ≠ "salt1") ∧
    decryptWithKey (encryptWithKey (42 : ℕ) (mkUnlockedVault "hunter22" ⟨"salt1", 210000⟩) 7)
      (mkUnlockedVault "hunter23" ⟨"salt1", 210000⟩) = Except.error VaultError.tamperedData :=
  ⟨c3_encrypt_decrypt_roundtrip_and_wrong_key_fails.1 ℕ 42 _ 7,
   Or.inl (by decide),
   c3_encrypt_decrypt_roundtrip_and_wrong_key_fails.2 ℕ 42 7 "hunter22" "hunter23"
     ⟨"salt1", 210000⟩ ⟨"salt1", 210000⟩ (Or.inl (by decide))⟩

/-! ### Secure storage layer (the localStorage module)

The storage module is modelled as explicit state passing over an association
list for `localStorage`, the in-memory vault key, and the decrypted cache.
Platform JSON (de)serialization and the zod settings validator are
modelled as hooks; the fire-and-forget asynchronous re-encryption of
`setSecureData` is modelled as having completed. -/

/-- `ENCRYPTED_KEYS` from the storage module. -/
def ENCRYPTED_KEYS : List String :=
  ["crypta_wallets", "crypta_transactions", "crypta_snapshots", "crypta_provider_configs"]

/-- Models of the platform/schema primitives the storage module calls. -/
structure StorageHooks (V : Type) where
  parse : String → Option V
  stringify : V → String
  encryptedBlob : DerivedKey → String → V → String
  stringifyStrList : List String → String
  validSettings : V → Bool
  defaultSettings : V
  emptyColl : V

/-- Storage-level failures. -/
inductive StorageErr
  | vaultLocked | unsupportedBackup
  deriving DecidableEq, Repr

/-- The module-level state: `localStorage`, the in-memory vault key (`_vault`),
and the decrypted cache (`_secureCache`). -/
structure StorageState (V : Type) where
  store : List (String × String)
  vaultKey : Option DerivedKey
  cache : List (String × V)

/-- `getSecureData(key, defaultValue)`: missing or empty raw value returns the
default before any vault check; encrypted keys require an unlocked vault and
read the cache; plain keys are `JSON.parse`d (a parse error is caught and
yields the default). -/
def getSecureData {V : Type} (hooks : StorageHooks V) (key : String) (defaultValue : V)
    (σ : StorageState V) : Except StorageErr V :=
  match assocFind key σ.store with
  | none => Except.ok defaultValue
  | some raw =>
    if raw = "" then Except.ok defaultValue
    else if key ∈ ENCRYPTED_KEYS then
      if σ.vaultKey = none then Except.error StorageErr.vaultLocked
      else
        match assocFind key σ.cache with
        | some v => Except.ok v
        | none => Except.ok defaultValue
    else
      match hooks.parse raw with
      | some v => Except.ok v
      | none => Except.ok defaultValue

/-- `setSecureData(key, data)`: encrypted keys require an unlocked vault
(throwing before the cache is touched), then update the cache synchronously
and persist the encrypted blob (the async completion is modelled as done);
plain keys are stringified straight to the store. -/
def setSecureData {V : Type} (hooks : StorageHooks V) (key : String) (data : V)
    (σ : StorageState V) : Except StorageErr Unit × StorageState V :=
  if key ∈ ENCRYPTED_KEYS then
    match σ.vaultKey with
    | none => (Except.error StorageErr.vaultLocked, σ)
    | some k =>
      (Except.ok (),
       { σ with
           cache := assocSet key data σ.cache
           store := assocSet key (hooks.encryptedBlob k key data) σ.store })
  else (Except.ok (), { σ with store := assocSet key (hooks.stringify data) σ.store })

/-- `saveSettings(settings)`: validate (falling back to the defaults) and
persist the versioned settings object. -/
def saveSettings {V : Type} (hooks : StorageHooks V) (s : V) (σ : StorageState V) :
    StorageState V :=
  let finalSettings := if hooks.validSettings s then s else hooks.defaultSettings
  { σ with store := assocSet "crypta_settings" (hooks.stringify finalSettings) σ.store }

/-- `BackupDataV1` (nullable fields model the defaulted reads). -/
structure BackupDataV1 (V : Type) where
  v : ℤ
  wallets : Option V
  transactions : Option V
  snapshots : Option V
  providerConfigs : Option V
  settings : Option V
  onboardingComplete : Bool
  hiddenAssets : Option (List String)
  spamAssets : Option (List String)

/-- `importBackupData(backup)`: reject a null backup or a version tag other
than 1 before any write; otherwise write the four encrypted collections, the
settings, and the three plain keys. -/
def importBackupData {V : Type} (hooks : StorageHooks V) (backup : Option (BackupDataV1 V))
    (σ : StorageState V) : Except StorageErr Unit × StorageState V :=
  match backup with
  | none => (Except.error StorageErr.unsupportedBackup, σ)
  | some b =>
    if b.v ≠ 1 then (Except.error StorageErr.unsupportedBackup, σ)
    else
      match setSecureData hooks "crypta_wallets" (b.wallets.getD hooks.emptyColl) σ with
      | (Except.error e, σ₁) => (Except.error e, σ₁)
      | (Except.ok _, σ₁) =>
        match setSecureData hooks "crypta_transactions"
            (b.transactions.getD hooks.emptyColl) σ₁ with
        | (Except.error e, σ₂) => (Except.error e, σ₂)
        | (Except.ok _, σ₂) =>
          match setSecureData hooks "crypta_snapshots"
              (b.snapshots.getD hooks.emptyColl) σ₂ with
          | (Except.error e, σ₃) => (Except.error e, σ₃)
          | (Except.ok _, σ₃) =>
            match setSecureData hooks "crypta_provider_configs"
                (b.providerConfigs.getD hooks.emptyColl) σ₃ with
            | (Except.error e, σ₄) => (Except.error e, σ₄)
            | (Except.ok _, σ₄) =>
              let σ₅ := saveSettings hooks (b.settings.getD hooks.defaultSettings) σ₄
              let onboardingRaw := if b.onboardingComplete then "true" else "false"
              let σ₆ := { σ₅ with
                store := assocSet "crypta_onboarding" onboardingRaw σ₅.store }
              let σ₇ := { σ₆ with
                store := assocSet "crypta_hidden_assets"
                  (hooks.stringifyStrList (b.hiddenAssets.getD [])) σ₆.store }
              let σ₈ := { σ₇ with
                store := assocSet "crypta_spam_assets"
                  (hooks.stringifyStrList (b.spamAssets.getD [])) σ₇.store }
              (Except.ok (), σ₈)

/-- Trivial hook instance used by concrete storage examples. -/
def trivialHooks : StorageHooks Bool :=
  { parse := fun _ => none
    stringify := fun _ => "x"
    encryptedBlob := fun _ _ _ => "e"
    stringifyStrList := fun _ => "l"
    validSettings := fun _ => true
    defaultSettings := true
    emptyColl := false }

/-- Counterexample to C7 as stated: with the vault locked and nothing persisted
under the (encrypted) wallets key, the read returns the default value instead
of failing with the vault-locked error. -/
theorem c7_locked_read_counterexample :
    "crypta_wallets" ∈ ENCRYPTED_KEYS ∧
    getSecureData trivialHooks "crypta_wallets" false
      { store := [], vaultKey := none, cache := [] } = Except.ok false ∧
    getSecureData trivialHooks "crypta_wallets" false
      { store := [], vaultKey := none, cache := [] } ≠
      Except.error StorageErr.vaultLocked := by
  refine ⟨by decide, rfl, ?_⟩
  intro h
  cases h

/-- C7 (amended).  For every key in the encrypted key set, when no vault is
unlocked, a read of that key fails with the vault-locked error provided the
underlying store holds a non-empty value for the key; when nothing (or an
empty string) is persisted, the default value is returned before the vault is
consulted. -/
theorem c7_locked_read_fails {V : Type} (hooks : StorageHooks V) (key : String)
    (defaultValue : V) (σ : StorageState V)
    (hkey : key ∈ ENCRYPTED_KEYS) (hvault : σ.vaultKey = none)
    (s : String) (hs : assocFind key σ.store = some s) (hne : s ≠ "") :
    getSecureData hooks key defaultValue σ = Except.error StorageErr.vaultLocked := by
  rw [getSecureData, hs]
  simp only [if_neg hne, if_pos hkey, if_pos hvault]

/-- Witness for C7 (amended): with a blob persisted under the wallets key and
the vault locked, the read fails with the vault-locked error. -/
theorem c7_locked_read_fails_witness :
    "crypta_wallets" ∈ ENCRYPTED_KEYS ∧
    (({ store := [("crypta_wallets", "blob")], vaultKey := none, cache := [] } :
        StorageState Bool).vaultKey = none) ∧
    assocFind "crypta_wallets"
      ({ store := [("crypta_wallets", "blob")], vaultKey := none, cache := [] } :
        StorageState Bool).store = some "blob" ∧
    ("blob" : String) ≠ "" ∧
    getSecureData trivialHooks "crypta_wallets" false
      { store := [("crypta_wallets", "blob")], vaultKey := none, cache := [] } =
      Except.error StorageErr.vaultLocked :=
  ⟨by decide, rfl, by with_unfolding_all decide, by decide,
   c7_locked_read_fails trivialHooks "crypta_wallets" false
     { store := [("crypta_wallets", "blob")], vaultKey := none, cache := [] }
     (by decide) rfl "blob" (by with_unfolding_all decide) (by decide)⟩

/-- C10.  `importBackupData` rejects a backup whose version tag is not 1 with
an error, before performing any write: the store, cache and vault key are all
left exactly as they were. -/
theorem c10_import_rejects_unsupported_version {V : Type} (hooks : StorageHooks V)
    (b : BackupDataV1 V) (σ : StorageState V) (hv : b.v ≠ 1) :
    importBackupData hooks (some b) σ = (Except.error StorageErr.unsupportedBackup, σ) := by
  rw [importBackupData, if_pos hv]

/-- Witness for C10: a concrete version-2 backup is rejected and a concrete
state is returned unchanged. -/
theorem c10_import_rejects_unsupported_version_witness :
    ((2 : ℤ) ≠ 1) ∧
    importBackupData trivialHooks
      (some { v := 2, wallets := none, transactions := none, snapshots := none,
              providerConfigs := none, settings := none, onboardingComplete := false,
              hiddenAssets := none, spamAssets := none })
      { store := [("crypta_wallets", "w")], vaultKey := none, cache := [] } =
      (Except.error StorageErr.unsupportedBackup,
       { store := [("crypta_wallets", "w")], vaultKey := none, cache := [] }) :=
  ⟨by decide,
   c10_import_rejects_unsupported_version trivialHooks _ _ (by decide)⟩

end CryptaFix

